import Mathlib

set_option maxHeartbeats 1000000
set_option maxRecDepth 4000

namespace DictionaryManager

/-- Lowercasing of a single character as performed by JavaScript
String.prototype.toLowerCase on ASCII input (the only case the
dictionary data exercises). -/
def lowerChar (c : Char) : Char :=
  if 65 ≤ c.toNat ∧ c.toNat ≤ 90 then Char.ofNat (c.toNat + 32) else c

/-- Lowercasing of a string, modelling word.toLowerCase() in the source. -/
def lowerStr (s : String) : String := String.mk (s.data.map lowerChar)

/-- A timestamp value as the merge code sees it after the JavaScript
expression new Date(x): either no usable value was present on the record
(missing or null, which are falsy), or a string was present but does not
parse (an Invalid Date, whose numeric value is NaN), or the string parses
to a number of milliseconds. -/
inductive JsTimestamp where
  | absent
  | invalid
  | valid (t : Int)
deriving DecidableEq, Repr, Inhabited

/-- The JavaScript expression a || b on timestamp fields: a falsy
(missing) left operand falls through to the right operand. -/
def tsOr : JsTimestamp → JsTimestamp → JsTimestamp
  | .absent, b => b
  | .invalid, _ => .invalid
  | .valid t, _ => .valid t

/-- The numeric value of new Date(x): none models NaN (Invalid Date). -/
def toDate : JsTimestamp → Option Int
  | .valid t => some t
  | _ => none

/-- JavaScript date comparison d1 > d2: numeric comparison that is false
whenever either side is NaN. -/
def dateGt : Option Int → Option Int → Bool
  | some a, some b => decide (b < a)
  | some _, none => false
  | none, _ => false

/-- The WordRecord entity of the data model: the fields the source reads
or writes, each optional field standing for a JSON property that may be
absent from a record (object-spread and Object.assign semantics make
absent properties keep the values of the record being overwritten). -/
structure WordRecord where
  id : Option Nat
  word : String
  definition : Option String
  partOfSpeech : Option String
  pronunciation : Option String
  examples : Option (List String)
  synonyms : Option (List String)
  antonyms : Option (List String)
  difficulty : Option String
  mastered : Option Bool
  notes : Option String
  source : Option String
  createdAt : JsTimestamp
  updatedAt : JsTimestamp
deriving DecidableEq, Repr, Inhabited

/-- The identity key of mergeWords and of the merge inside
dictionary.js loadFromGitHub: the lower-cased word text. -/
def keyOf (w : WordRecord) : String := lowerStr w.word

/-- The date a record is compared by in mergeWords:
new Date(record.updatedAt || record.createdAt). -/
def jsDate (w : WordRecord) : Option Int := toDate (tsOr w.updatedAt w.createdAt)

/-- Overwrite semantics for one optional JSON property under object
spread: a property present on the incoming object wins, an absent one
keeps the existing value. -/
def jsOv {α : Type} : Option α → Option α → Option α
  | some v, _ => some v
  | none, e => e

/-- The JavaScript expression id || freshId used when an id may be
missing: undefined, null and the number 0 are falsy. -/
def jsOrId : Option Nat → Nat → Nat
  | some v, d => if v = 0 then d else v
  | none, d => d

/-- Index into the local list that the existingMap of mergeWords resolves
a key to: the map is filled by a forward forEach, so a later record with
the same key overwrites an earlier one, and lookup yields the last
index whose record carries the key. -/
def lastIdxOfKey : List WordRecord → String → Option Nat
  | [], _ => none
  | w :: ws, k =>
    match lastIdxOfKey ws k with
    | some j => some (j + 1)
    | none => if keyOf w = k then some 0 else none

/-- Index produced by Array.prototype.findIndex over ids: the first
index whose record's id is strictly equal to the probe (two absent ids
compare equal, as undefined === undefined does). -/
def firstIdxById : List WordRecord → Option Nat → Option Nat
  | [], _ => none
  | w :: ws, v => if w.id = v then some 0 else (firstIdxById ws v).map (· + 1)

/-- The in-place update of mergeWords when the GitHub version is newer:
Object.assign(existing, { ...githubWord, id: existing.id,
source: existing.source }). Properties present on the remote record
overwrite the local ones; the local id and source are reinstated
explicitly; properties absent from the remote record keep their local
values. -/
def assignFromRemote (ex g : WordRecord) : WordRecord where
  id := ex.id
  word := g.word
  definition := jsOv g.definition ex.definition
  partOfSpeech := jsOv g.partOfSpeech ex.partOfSpeech
  pronunciation := jsOv g.pronunciation ex.pronunciation
  examples := jsOv g.examples ex.examples
  synonyms := jsOv g.synonyms ex.synonyms
  antonyms := jsOv g.antonyms ex.antonyms
  difficulty := jsOv g.difficulty ex.difficulty
  mastered := jsOv g.mastered ex.mastered
  notes := jsOv g.notes ex.notes
  source := ex.source
  createdAt := tsOr g.createdAt ex.createdAt
  updatedAt := tsOr g.updatedAt ex.updatedAt

/-- The record pushed by mergeWords for a remote word whose key is not in
the existingMap: { ...githubWord, id: Date.now() + Math.random(),
source: 'GitHub Sync' }. The fresh id is supplied by the caller. -/
def ghCopy (freshId : Nat) (g : WordRecord) : WordRecord :=
  { g with id := some freshId, source := some "GitHub Sync" }

/-- One iteration of the forEach loop of mergeWords (part_000).
The lookup map was built from the local list before the loop, so it is
consulted with the original list while pushes and in-place updates act
on the evolving list; the Nat component counts added words and indexes
the fresh-id supply. -/
def mwStep (orig : List WordRecord) (fresh : Nat → Nat)
    (st : List WordRecord × Nat) (g : WordRecord) : List WordRecord × Nat :=
  match lastIdxOfKey orig (keyOf g) with
  | none => (st.1 ++ [ghCopy (fresh st.2) g], st.2 + 1)
  | some i =>
    if dateGt (jsDate g) (jsDate (st.1.getD i default)) then
      (st.1.set i (assignFromRemote (st.1.getD i default) g), st.2)
    else st

/-- mergeWords of src/unnamed/part_000: merge the fetched GitHub words
into the local words. fresh supplies the value of
Date.now() + Math.random() for the n-th added word. -/
def mergeWords (fresh : Nat → Nat) (words githubWords : List WordRecord) :
    List WordRecord :=
  (githubWords.foldl (mwStep words fresh) (words, 0)).1

/-- The remote records that a mergeWords run appends: those whose key
misses the map built from the original local list. Because the map is
never extended during the loop, several remote records with the same
new key are all appended. -/
def mwAdds (L R : List WordRecord) : List WordRecord :=
  R.filter fun g => (lastIdxOfKey L (keyOf g)).isNone

/-- The overwrite of mergeDictionaries (script.js) for a matched id:
{ ...mergedWords[existingIndex], ...incomingWord,
updatedAt: new Date().toISOString() }. No timestamp comparison guards
this update. -/
def mdSpread (ex inc : WordRecord) (now : Int) : WordRecord where
  id := jsOv inc.id ex.id
  word := inc.word
  definition := jsOv inc.definition ex.definition
  partOfSpeech := jsOv inc.partOfSpeech ex.partOfSpeech
  pronunciation := jsOv inc.pronunciation ex.pronunciation
  examples := jsOv inc.examples ex.examples
  synonyms := jsOv inc.synonyms ex.synonyms
  antonyms := jsOv inc.antonyms ex.antonyms
  difficulty := jsOv inc.difficulty ex.difficulty
  mastered := jsOv inc.mastered ex.mastered
  notes := jsOv inc.notes ex.notes
  source := jsOv inc.source ex.source
  createdAt := tsOr inc.createdAt ex.createdAt
  updatedAt := .valid now

/-- The record pushed by mergeDictionaries for an unmatched id:
{ ...incomingWord, id: incomingWord.id || Date.now() + Math.random(),
createdAt: incomingWord.createdAt || new Date().toISOString(),
updatedAt: new Date().toISOString() }. -/
def mdAdd (freshId : Nat) (now : Int) (inc : WordRecord) : WordRecord :=
  { inc with
    id := some (jsOrId inc.id freshId)
    createdAt := tsOr inc.createdAt (.valid now)
    updatedAt := .valid now }

/-- One iteration of the forEach loop of mergeDictionaries: findIndex
runs over the evolving merged list. -/
def mdStep (now : Int) (fresh : Nat → Nat)
    (st : List WordRecord × Nat) (inc : WordRecord) : List WordRecord × Nat :=
  match firstIdxById st.1 inc.id with
  | some i => (st.1.set i (mdSpread (st.1.getD i default) inc now), st.2)
  | none => (st.1 ++ [mdAdd (fresh st.2) now inc], st.2 + 1)

/-- mergeDictionaries of src/script.js: merge the incoming words into
the current words by id. now is the millisecond value whose ISO string
new Date().toISOString() stamps every touched record. -/
def mergeDictionaries (now : Int) (fresh : Nat → Nat)
    (current incoming : List WordRecord) : List WordRecord :=
  (incoming.foldl (mdStep now fresh) (current, 0)).1

/-- The incoming records that a mergeDictionaries run appends when no
incoming id collides with an earlier appended one: those whose id finds
no match in the current list. -/
def mdAdds (L R : List WordRecord) : List WordRecord :=
  R.filter fun inc => (firstIdxById L inc.id).isNone

/-- Pair each list element with its position, starting from n. Used to
model loops that draw one fresh id per processed element. -/
def numberFrom {α : Type} : Nat → List α → List (Nat × α)
  | _, [] => []
  | n, x :: xs => (n, x) :: numberFrom (n + 1) xs

/-- One iteration of the forEach loop inside dictionary.js
loadFromGitHub: the Set of local keys was computed before the loop and
is never extended, so membership is tested against the original local
keys only. A miss pushes { ...githubWord, id: Date.now() + Math.random() }
(the remote source field, unlike in part_000, is kept). -/
def dmStep (localKeys : List String) (fresh : Nat → Nat)
    (st : List WordRecord × Nat) (g : WordRecord) : List WordRecord × Nat :=
  if localKeys.contains (keyOf g) then st
  else (st.1 ++ [{ g with id := some (fresh st.2) }], st.2 + 1)

/-- The merge performed inline by loadFromGitHub in src/dictionary.js:
append every GitHub word whose lower-cased text is not already a local
key; matched words are left entirely alone. -/
def dictLoadMerge (fresh : Nat → Nat) (words githubWords : List WordRecord) :
    List WordRecord :=
  (githubWords.foldl (dmStep (words.map keyOf) fresh) (words, 0)).1

/-- Outcome of one remote fetch of dictionary.json as the callers
distinguish them: the fetch promise rejected (network error), the
response arrived with a non-success status, response.json() threw, or a
JSON body was parsed - carrying the words array when the body had one
and none when it did not. -/
inductive FetchResult where
  | networkError
  | httpError
  | parseError
  | ok (words : Option (List WordRecord))
deriving DecidableEq, Repr

/-- loadFromGitHub of src/unnamed/part_000: on a parsed body with a
words array it merges via mergeWords and returns true; every other
outcome (network error, non-ok status, parse failure, missing words
field) leaves the local words untouched and returns false. -/
def loadFromGitHub_p0 (fresh : Nat → Nat) (r : FetchResult)
    (words : List WordRecord) : List WordRecord × Bool :=
  match r with
  | .ok (some gws) => (mergeWords fresh words gws, true)
  | _ => (words, false)

/-- loadFromGitHub of src/dictionary.js: on a parsed body with a words
array it appends the unknown GitHub words; every other outcome leaves
the local words untouched. -/
def loadFromGitHub_dict (fresh : Nat → Nat) (r : FetchResult)
    (words : List WordRecord) : List WordRecord :=
  match r with
  | .ok (some gws) => dictLoadMerge fresh words gws
  | _ => words

/-- The localStorage dictionary_backup blob of src/script.js. -/
structure Backup where
  words : List WordRecord
  gitHash : Option String
deriving DecidableEq, Repr, Inhabited

/-- The state a src/script.js DictionaryManager instance owns that the
sync path reads or writes: the in-memory words, the last seen commit
hash, the pending_sync and dictionary_backup localStorage entries, the
sync status indicator and the in-flight flag. -/
structure ScriptState where
  isSyncing : Bool
  words : List WordRecord
  lastGitHash : Option String
  pending : Option (List WordRecord)
  backup : Option Backup
  syncStatus : String
deriving DecidableEq, Repr, Inhabited

/-- The per-word normalisation of script.js loadFromGitHub on success:
{ ...word, id: word.id || fresh, createdAt: word.createdAt || now,
updatedAt: word.updatedAt || now }. -/
def fillDefaults (now : Int) (freshId : Nat) (w : WordRecord) : WordRecord :=
  { w with
    id := some (jsOrId w.id freshId)
    createdAt := tsOr w.createdAt (.valid now)
    updatedAt := tsOr w.updatedAt (.valid now) }

/-- The sample dictionary written by createInitialDictionary in
src/script.js when no remote words file is found. -/
def initialWords (now : Int) : List WordRecord :=
  [{ id := some 1
     word := "Serendipity"
     definition := some "The occurrence and development of events by chance in a happy or beneficial way."
     partOfSpeech := some "noun"
     pronunciation := some "/ˌsɛrənˈdɪpɪti/"
     examples := some ["Finding that old photo was pure serendipity.",
       "Their meeting was a happy serendipity."]
     synonyms := some ["fortunate discovery", "happy accident", "luck"]
     antonyms := some ["misfortune", "bad luck"]
     difficulty := some "medium"
     mastered := some false
     notes := none
     source := some "Sample"
     createdAt := .valid now
     updatedAt := .valid now }]

/-- loadFromGitHub of src/script.js (GitHub as primary storage). On a
body with a words array it replaces this.words wholesale with the
normalised remote words, refreshes lastGitHash from a second hash fetch
and saves a local backup. On an ok response without a words array, and
on a non-success status, it resets this.words to empty and queues the
initial sample dictionary for sync (createInitialDictionary). On a
thrown error (network or JSON parse) it falls back to the local backup
when one exists, replacing this.words and lastGitHash with the backed-up
values, and leaves the state alone when there is none. -/
def loadFromGitHub_script (r : FetchResult) (hash2 : Option String)
    (now : Int) (fresh : Nat → Nat) (s : ScriptState) : ScriptState × Bool :=
  match r with
  | .ok (some gws) =>
    let ws := (numberFrom 0 gws).map fun p => fillDefaults now (fresh p.1) p.2
    let s1 := { s with words := ws, lastGitHash := hash2 }
    ({ s1 with backup := some ⟨s1.words, s1.lastGitHash⟩ }, true)
  | .ok none =>
    let s1 := { s with words := [], pending := some (initialWords now) }
    ({ s1 with syncStatus := "pending" }, true)
  | .httpError =>
    let s1 := { s with words := [], pending := some (initialWords now) }
    ({ s1 with syncStatus := "pending" }, true)
  | .networkError =>
    (match s.backup with
     | some b => ({ s with words := b.words, lastGitHash := b.gitHash }, false)
     | none => (s, false))
  | .parseError =>
    (match s.backup with
     | some b => ({ s with words := b.words, lastGitHash := b.gitHash }, false)
     | none => (s, false))

/-- The environment a single checkForUpdates cycle of src/script.js
observes: the two getCurrentGitHash results (each already none on an
internal failure, since getCurrentGitHash catches its own errors), the
dictionary.json fetch of loadFromGitHub, the getCurrentDictionary fetch
of pushPendingChanges, the clock, and the fresh-id supplies of the two
merge sites. -/
structure SyncEnv where
  hash1 : Option String
  fetch1 : FetchResult
  hash2 : Option String
  fetch2 : FetchResult
  now : Int
  freshA : Nat → Nat
  freshB : Nat → Nat

/-- pushPendingChanges of src/script.js: with no pending_sync entry it
does nothing. Otherwise it loads the current remote dictionary
(getCurrentDictionary returns { words: [] } on any fetch failure),
merges the pending words into it with mergeDictionaries, hands the
result to saveToGitHub - which stores it under pending_sync and flips
the status indicator to pending - and then removes the pending_sync
entry. When the remote body parses but has no words array, spreading
current.words throws, the catch swallows the error and the state is
unchanged. -/
def pushPendingChanges (env : SyncEnv) (s : ScriptState) : ScriptState :=
  match s.pending with
  | none => s
  | some pws =>
    match env.fetch2 with
    | .ok none => s
    | .ok (some cws) =>
      let merged := mergeDictionaries env.now env.freshB cws pws
      let s1 := { s with pending := some merged, syncStatus := "pending" }
      { s1 with pending := none }
    | _ =>
      let merged := mergeDictionaries env.now env.freshB [] pws
      let s1 := { s with pending := some merged, syncStatus := "pending" }
      { s1 with pending := none }

/-- checkForUpdates of src/script.js. The isSyncing guard returns
immediately when a cycle is already in flight. Otherwise the flag is
set, the remote commit hash is compared with the last seen one, a
changed hash triggers loadFromGitHub, pending changes are pushed, the
hash and status are updated, and the finally clause clears the flag.
Every callee catches its own errors (getCurrentGitHash, loadFromGitHub
and pushPendingChanges each wrap their bodies in try/catch), so the
cycle body is total and the finally clause runs on every path. -/
def checkForUpdates (env : SyncEnv) (s : ScriptState) : ScriptState :=
  if s.isSyncing then s
  else
    let s1 := { s with isSyncing := true, syncStatus := "syncing" }
    let s2 :=
      match env.hash1 with
      | some h =>
        if some h ≠ s1.lastGitHash then
          (loadFromGitHub_script env.fetch1 env.hash2 env.now env.freshA s1).1
        else s1
      | none => s1
    let s3 := pushPendingChanges env s2
    let s4 := { s3 with lastGitHash := env.hash1, syncStatus := "synced" }
    { s4 with isSyncing := false }

/-- Compact builder for concrete test records: id, word, definition,
source, createdAt, updatedAt; every other field absent. -/
def mkRec (i : Option Nat) (w : String) (defn : Option String)
    (src : Option String) (c u : JsTimestamp) : WordRecord :=
  { id := i, word := w, definition := defn, partOfSpeech := none,
    pronunciation := none, examples := none, synonyms := none,
    antonyms := none, difficulty := none, mastered := none, notes := none,
    source := src, createdAt := c, updatedAt := u }

section Theorems

/-- Absorbing an already-absorbed property again changes nothing. -/
theorem jsOv_absorb {α : Type} (a b : Option α) : jsOv a (jsOv a b) = jsOv a b := by
  cases a <;> rfl

/-- A fallback applied twice with the same left operand is the fallback
applied once. -/
theorem tsOr_absorb (a b : JsTimestamp) : tsOr a (tsOr a b) = tsOr a b := by
  cases a <;> rfl

/-- Overwriting with the same incoming record twice yields the same
record as overwriting once: every field of assignFromRemote is
idempotent in the existing record. -/
theorem assignFromRemote_idem (g w : WordRecord) :
    assignFromRemote (assignFromRemote w g) g = assignFromRemote w g := by
  simp [assignFromRemote, jsOv_absorb, tsOr_absorb]

/-- A strict date comparison of a value with itself is false (as for
JavaScript Date objects, including the NaN case). -/
theorem dateGt_self (d : Option Int) : dateGt d d = false := by
  cases d with
  | none => rfl
  | some t => simp [dateGt]

/-- mergeWords on singleton lists whose records share the identity key:
the single local record is overwritten exactly when the remote date is
strictly newer. -/
theorem mergeWords_singleton (fresh : Nat → Nat) (l g : WordRecord)
    (hk : keyOf g = keyOf l) :
    mergeWords fresh [l] [g] =
      if dateGt (jsDate g) (jsDate l) then [assignFromRemote l g] else [l] := by
  simp [mergeWords, mwStep, lastIdxOfKey, hk]
  by_cases h : dateGt (jsDate g) (jsDate l) = true <;> simp [h, List.set]

/-- mergeDictionaries on singleton lists whose records share an id: the
incoming record overwrites unconditionally. -/
theorem mergeDictionaries_singleton (now : Int) (fresh : Nat → Nat)
    (l g : WordRecord) (hid : l.id = g.id) :
    mergeDictionaries now fresh [l] [g] = [mdSpread l g now] := by
  simp [mergeDictionaries, mdStep, firstIdxById, hid, List.set]

/-- An element paired with a position came from the underlying list. -/
theorem mem_numberFrom {α : Type} (p : Nat × α) :
    ∀ (n : Nat) (xs : List α), p ∈ numberFrom n xs → p.2 ∈ xs := by
  intro n xs
  induction xs generalizing n with
  | nil => intro h; cases h
  | cons x xs ih =>
    intro h
    cases h with
    | head => exact List.mem_cons_self ..
    | tail _ h => exact List.mem_cons_of_mem _ (ih _ h)

/-- C2 (counterexample): two records share the key "cat", the remote
updatedAt (200) is strictly greater than the local one (100), yet the
merged record is not the remote content with only the local id
restored - mergeWords also reinstates the local source field. -/
theorem c2_counterexample :
    keyOf (mkRec (some 9) "cat" (some "feline") (some "API") (.valid 60) (.valid 200))
      = keyOf (mkRec (some 1) "cat" (some "a") (some "Manual") (.valid 50) (.valid 100)) ∧
    dateGt
      (jsDate (mkRec (some 9) "cat" (some "feline") (some "API") (.valid 60) (.valid 200)))
      (jsDate (mkRec (some 1) "cat" (some "a") (some "Manual") (.valid 50) (.valid 100)))
      = true ∧
    mergeWords (fun _ => 0)
      [mkRec (some 1) "cat" (some "a") (some "Manual") (.valid 50) (.valid 100)]
      [mkRec (some 9) "cat" (some "feline") (some "API") (.valid 60) (.valid 200)]
      ≠ [{ mkRec (some 9) "cat" (some "feline") (some "API") (.valid 60) (.valid 200)
            with id := some 1 }] := by
  decide

/-- C2 (amended): when two records share the identity key and the
remote record is strictly newer, mergeWords overwrites the local record
with the remote fields while preserving the local id and the local
source (properties absent from the remote record keep their local
values); mergeDictionaries overwrites the matched record with the
incoming fields, preserves the id, and stamps updatedAt with the sync
time rather than keeping the remote updatedAt. -/
theorem c2_amended (fresh : Nat → Nat) (now : Int) (l g : WordRecord)
    (hk : keyOf g = keyOf l) (hid : l.id = g.id)
    (hd : dateGt (jsDate g) (jsDate l) = true) :
    (mergeWords fresh [l] [g] = [assignFromRemote l g] ∧
     (assignFromRemote l g).id = l.id ∧
     (assignFromRemote l g).source = l.source ∧
     (assignFromRemote l g).word = g.word ∧
     (∀ x, g.definition = some x → (assignFromRemote l g).definition = some x) ∧
     (∀ t, g.updatedAt = .valid t → (assignFromRemote l g).updatedAt = .valid t)) ∧
    (mergeDictionaries now fresh [l] [g] = [mdSpread l g now] ∧
     (mdSpread l g now).id = l.id ∧
     (mdSpread l g now).updatedAt = .valid now) := by
  refine ⟨⟨?_, rfl, rfl, rfl, ?_, ?_⟩, ⟨mergeDictionaries_singleton now fresh l g hid, ?_, rfl⟩⟩
  · rw [mergeWords_singleton fresh l g hk, hd]; rfl
  · intro x hx; simp [assignFromRemote, hx, jsOv]
  · intro t ht; simp [assignFromRemote, ht, tsOr]
  · simp only [mdSpread]; rw [← hid]; cases l.id <;> simp [jsOv]

/-- C2 (witness): the amended statement instantiated at two concrete
records that share both the key "cat" and the id 1, with the remote
strictly newer. -/
theorem c2_witness :
    (keyOf (mkRec (some 1) "cat" (some "feline") (some "API") (.valid 60) (.valid 200))
       = keyOf (mkRec (some 1) "cat" (some "a") (some "Manual") (.valid 50) (.valid 100)) ∧
     (mkRec (some 1) "cat" (some "a") (some "Manual") (.valid 50) (.valid 100)).id
       = (mkRec (some 1) "cat" (some "feline") (some "API") (.valid 60) (.valid 200)).id ∧
     dateGt
       (jsDate (mkRec (some 1) "cat" (some "feline") (some "API") (.valid 60) (.valid 200)))
       (jsDate (mkRec (some 1) "cat" (some "a") (some "Manual") (.valid 50) (.valid 100)))
       = true) ∧
    mergeWords (fun _ => 0)
      [mkRec (some 1) "cat" (some "a") (some "Manual") (.valid 50) (.valid 100)]
      [mkRec (some 1) "cat" (some "feline") (some "API") (.valid 60) (.valid 200)]
      = [assignFromRemote
          (mkRec (some 1) "cat" (some "a") (some "Manual") (.valid 50) (.valid 100))
          (mkRec (some 1) "cat" (some "feline") (some "API") (.valid 60) (.valid 200))] ∧
    mergeDictionaries 500 (fun _ => 0)
      [mkRec (some 1) "cat" (some "a") (some "Manual") (.valid 50) (.valid 100)]
      [mkRec (some 1) "cat" (some "feline") (some "API") (.valid 60) (.valid 200)]
      = [mdSpread
          (mkRec (some 1) "cat" (some "a") (some "Manual") (.valid 50) (.valid 100))
          (mkRec (some 1) "cat" (some "feline") (some "API") (.valid 60) (.valid 200)) 500] := by
  refine ⟨by decide, ?_, ?_⟩
  · exact (c2_amended (fun _ => 0) 500 _ _ (by decide) (by decide) (by decide)).1.1
  · exact (c2_amended (fun _ => 0) 500 _ _ (by decide) (by decide) (by decide)).2.1

/-- C3 (counterexample): two records share the id 1 and have exactly
equal timestamps, yet mergeDictionaries does not keep the local record
unchanged - it overwrites with the incoming fields and restamps
updatedAt. -/
theorem c3_counterexample :
    (mkRec (some 1) "cat" (some "a") none (.valid 50) (.valid 100)).id
      = (mkRec (some 1) "cat" (some "b") none (.valid 50) (.valid 100)).id ∧
    jsDate (mkRec (some 1) "cat" (some "b") none (.valid 50) (.valid 100))
      = jsDate (mkRec (some 1) "cat" (some "a") none (.valid 50) (.valid 100)) ∧
    mergeDictionaries 500 (fun _ => 7)
      [mkRec (some 1) "cat" (some "a") none (.valid 50) (.valid 100)]
      [mkRec (some 1) "cat" (some "b") none (.valid 50) (.valid 100)]
      ≠ [mkRec (some 1) "cat" (some "a") none (.valid 50) (.valid 100)] := by
  decide

/-- C3 (amended): when the timestamps are equal or the local one is
greater, mergeWords keeps the local record completely unchanged, but
mergeDictionaries still overwrites the matched record with the incoming
fields and stamps updatedAt with the sync time - it never consults the
timestamps. -/
theorem c3_amended (fresh : Nat → Nat) (now : Int) (l g : WordRecord)
    (tg tl : Int) (hk : keyOf g = keyOf l) (hid : l.id = g.id)
    (hg : jsDate g = some tg) (hl : jsDate l = some tl) (hle : tg ≤ tl) :
    mergeWords fresh [l] [g] = [l] ∧
    mergeDictionaries now fresh [l] [g] = [mdSpread l g now] := by
  refine ⟨?_, mergeDictionaries_singleton now fresh l g hid⟩
  rw [mergeWords_singleton fresh l g hk]
  have : dateGt (jsDate g) (jsDate l) = false := by
    rw [hg, hl]; simp [dateGt]; exact hle
  rw [this]; simp

/-- C3 (witness): the amended statement at two records with id 1, key
"cat" and equal timestamps. -/
theorem c3_witness :
    (keyOf (mkRec (some 1) "cat" (some "b") none (.valid 50) (.valid 100))
       = keyOf (mkRec (some 1) "cat" (some "a") none (.valid 50) (.valid 100)) ∧
     (mkRec (some 1) "cat" (some "a") none (.valid 50) (.valid 100)).id
       = (mkRec (some 1) "cat" (some "b") none (.valid 50) (.valid 100)).id ∧
     jsDate (mkRec (some 1) "cat" (some "b") none (.valid 50) (.valid 100)) = some 100 ∧
     jsDate (mkRec (some 1) "cat" (some "a") none (.valid 50) (.valid 100)) = some 100 ∧
     (100 : Int) ≤ 100) ∧
    mergeWords (fun _ => 0)
      [mkRec (some 1) "cat" (some "a") none (.valid 50) (.valid 100)]
      [mkRec (some 1) "cat" (some "b") none (.valid 50) (.valid 100)]
      = [mkRec (some 1) "cat" (some "a") none (.valid 50) (.valid 100)] := by
  refine ⟨by decide, ?_⟩
  exact (c3_amended (fun _ => 0) 500 _ _ 100 100 (by decide) (by decide) (by decide)
    (by decide) (by decide)).1

/-- C7: a remote record matching a local record by key but carrying
neither updatedAt nor createdAt produces an Invalid Date, every
comparison against which is false, so it never overwrites the local
record - here stated for a local record with a real parseable
timestamp. -/
theorem c7_timestampless_remote_loses (fresh : Nat → Nat) (l g : WordRecord)
    (tl : Int) (hk : keyOf g = keyOf l)
    (hu : g.updatedAt = .absent) (hc : g.createdAt = .absent)
    (_hl : jsDate l = some tl) :
    mergeWords fresh [l] [g] = [l] := by
  rw [mergeWords_singleton fresh l g hk]
  have : jsDate g = none := by simp [jsDate, hu, hc, tsOr, toDate]
  rw [this]
  simp [dateGt]

/-- C7 (witness): a timestampless remote "cat" loses to a local "cat"
updated at time 100. -/
theorem c7_witness :
    (keyOf (mkRec (some 9) "cat" (some "b") none .absent .absent)
       = keyOf (mkRec (some 1) "cat" (some "a") none (.valid 50) (.valid 100)) ∧
     (mkRec (some 9) "cat" (some "b") none .absent .absent).updatedAt = .absent ∧
     (mkRec (some 9) "cat" (some "b") none .absent .absent).createdAt = .absent ∧
     jsDate (mkRec (some 1) "cat" (some "a") none (.valid 50) (.valid 100)) = some 100) ∧
    mergeWords (fun _ => 0)
      [mkRec (some 1) "cat" (some "a") none (.valid 50) (.valid 100)]
      [mkRec (some 9) "cat" (some "b") none .absent .absent]
      = [mkRec (some 1) "cat" (some "a") none (.valid 50) (.valid 100)] := by
  refine ⟨by decide, ?_⟩
  exact c7_timestampless_remote_loses (fun _ => 0) _ _ 100 (by decide) (by decide)
    (by decide) (by decide)

/-- C9: when mergeWords overwrites a local record with a strictly newer
remote record, the local id and the local source are both preserved,
and the remaining fields take the remote values whenever the remote
record carries them. -/
theorem c9_overwrite_preserves_id_and_source (fresh : Nat → Nat)
    (l g : WordRecord) (hk : keyOf g = keyOf l)
    (hd : dateGt (jsDate g) (jsDate l) = true) :
    mergeWords fresh [l] [g] = [assignFromRemote l g] ∧
    (assignFromRemote l g).id = l.id ∧
    (assignFromRemote l g).source = l.source ∧
    (assignFromRemote l g).word = g.word ∧
    (∀ x, g.definition = some x → (assignFromRemote l g).definition = some x) ∧
    (∀ x, g.partOfSpeech = some x → (assignFromRemote l g).partOfSpeech = some x) ∧
    (∀ x, g.pronunciation = some x → (assignFromRemote l g).pronunciation = some x) ∧
    (∀ x, g.examples = some x → (assignFromRemote l g).examples = some x) ∧
    (∀ x, g.synonyms = some x → (assignFromRemote l g).synonyms = some x) ∧
    (∀ x, g.antonyms = some x → (assignFromRemote l g).antonyms = some x) ∧
    (∀ x, g.difficulty = some x → (assignFromRemote l g).difficulty = some x) ∧
    (∀ x, g.mastered = some x → (assignFromRemote l g).mastered = some x) ∧
    (∀ x, g.notes = some x → (assignFromRemote l g).notes = some x) ∧
    (∀ t, g.updatedAt = .valid t → (assignFromRemote l g).updatedAt = .valid t) ∧
    (∀ t, g.createdAt = .valid t → (assignFromRemote l g).createdAt = .valid t) := by
  refine ⟨?_, rfl, rfl, rfl, ?_, ?_, ?_, ?_, ?_, ?_, ?_, ?_, ?_, ?_, ?_⟩
  · rw [mergeWords_singleton fresh l g hk, hd]; rfl
  all_goals intro x hx
  all_goals simp [assignFromRemote, hx, jsOv, tsOr]

/-- C9 (witness): the overwrite of a local "cat" carrying source
"Manual" by a newer remote "cat" carrying source "API". -/
theorem c9_witness :
    (keyOf (mkRec (some 9) "cat" (some "feline") (some "API") (.valid 60) (.valid 200))
       = keyOf (mkRec (some 1) "cat" (some "a") (some "Manual") (.valid 50) (.valid 100)) ∧
     dateGt
       (jsDate (mkRec (some 9) "cat" (some "feline") (some "API") (.valid 60) (.valid 200)))
       (jsDate (mkRec (some 1) "cat" (some "a") (some "Manual") (.valid 50) (.valid 100)))
       = true) ∧
    mergeWords (fun _ => 0)
      [mkRec (some 1) "cat" (some "a") (some "Manual") (.valid 50) (.valid 100)]
      [mkRec (some 9) "cat" (some "feline") (some "API") (.valid 60) (.valid 200)]
      = [assignFromRemote
          (mkRec (some 1) "cat" (some "a") (some "Manual") (.valid 50) (.valid 100))
          (mkRec (some 9) "cat" (some "feline") (some "API") (.valid 60) (.valid 200))] ∧
    (assignFromRemote
      (mkRec (some 1) "cat" (some "a") (some "Manual") (.valid 50) (.valid 100))
      (mkRec (some 9) "cat" (some "feline") (some "API") (.valid 60) (.valid 200))).source
      = some "Manual" := by
  refine ⟨by decide, ?_, by decide⟩
  exact (c9_overwrite_preserves_id_and_source (fun _ => 0) _ _ (by decide) (by decide)).1

/-- C6 (counterexample): a non-success HTTP status is a remote-fetch
failure, yet loadFromGitHub in src/script.js does not leave the local
collection as it was - it resets this.words to the empty list. -/
theorem c6_counterexample :
    (loadFromGitHub_script .httpError none 0 (fun _ => 0)
      { isSyncing := false
        words := [mkRec (some 1) "cat" (some "a") none (.valid 50) (.valid 100)]
        lastGitHash := none, pending := none, backup := none
        syncStatus := "" }).1.words = [] ∧
    [] ≠ [mkRec (some 1) "cat" (some "a") none (.valid 50) (.valid 100)] := by
  decide

/-- C6 (amended): on any fetch outcome other than a parsed body with a
words array, loadFromGitHub in part_000 and in dictionary.js leave the
local collection exactly as it was; loadFromGitHub in script.js leaves
it unchanged only on a thrown error (network or parse failure) with no
local backup stored - with a backup it replaces the collection by the
backup words, and on a non-success status or a body without a words
array it resets the collection to empty. -/
theorem c6_amended (fresh : Nat → Nat) (r : FetchResult)
    (hfail : ∀ gws, r ≠ .ok (some gws)) :
    (∀ ws, loadFromGitHub_p0 fresh r ws = (ws, false)) ∧
    (∀ ws, loadFromGitHub_dict fresh r ws = ws) ∧
    (∀ hash2 now s, s.backup = none → (r = .networkError ∨ r = .parseError) →
      (loadFromGitHub_script r hash2 now fresh s).1 = s) ∧
    (∀ hash2 now s b, s.backup = some b → (r = .networkError ∨ r = .parseError) →
      (loadFromGitHub_script r hash2 now fresh s).1.words = b.words) ∧
    (∀ hash2 now s, (r = .httpError ∨ r = .ok none) →
      (loadFromGitHub_script r hash2 now fresh s).1.words = []) := by
  refine ⟨?_, ?_, ?_, ?_, ?_⟩
  · intro ws
    cases r with
    | ok ows =>
      cases ows with
      | none => rfl
      | some gws => exact absurd rfl (hfail gws)
    | networkError => rfl
    | httpError => rfl
    | parseError => rfl
  · intro ws
    cases r with
    | ok ows =>
      cases ows with
      | none => rfl
      | some gws => exact absurd rfl (hfail gws)
    | networkError => rfl
    | httpError => rfl
    | parseError => rfl
  · intro hash2 now s hb hr
    rcases hr with h | h <;> subst h <;> simp [loadFromGitHub_script, hb]
  · intro hash2 now s b hb hr
    rcases hr with h | h <;> subst h <;> simp [loadFromGitHub_script, hb]
  · intro hash2 now s hr
    rcases hr with h | h <;> subst h <;> simp [loadFromGitHub_script]

/-- C6 (witness): the amended statement at the network-error outcome,
evaluated for the empty-backup script state. -/
theorem c6_witness :
    (∀ gws, FetchResult.networkError ≠ .ok (some gws)) ∧
    loadFromGitHub_p0 (fun _ => 0) .networkError
      [mkRec (some 1) "cat" (some "a") none (.valid 50) (.valid 100)]
      = ([mkRec (some 1) "cat" (some "a") none (.valid 50) (.valid 100)], false) ∧
    (loadFromGitHub_script .networkError none 0 (fun _ => 0)
      { isSyncing := false
        words := [mkRec (some 1) "cat" (some "a") none (.valid 50) (.valid 100)]
        lastGitHash := none, pending := none, backup := none
        syncStatus := "" }).1
      = { isSyncing := false
          words := [mkRec (some 1) "cat" (some "a") none (.valid 50) (.valid 100)]
          lastGitHash := none, pending := none, backup := none
          syncStatus := "" } := by
  refine ⟨?_, ?_, ?_⟩
  · intro gws h; cases h
  · exact (c6_amended (fun _ => 0) .networkError (fun gws h => by cases h)).1 _
  · exact (c6_amended (fun _ => 0) .networkError (fun gws h => by cases h)).2.2.1
      none 0 _ rfl (Or.inl rfl)

/-- C8: the isSyncing flag makes sync cycles mutually exclusive within
a tab - a checkForUpdates call that finds the flag set returns the
state untouched (no fetch, merge or mutation), and a cycle that does
run always ends with the flag cleared by its finally clause, whether
the body succeeded or an inner step failed (every callee catches its
own errors). -/
theorem c8_sync_guard (env : SyncEnv) (s : ScriptState) :
    (s.isSyncing = true → checkForUpdates env s = s) ∧
    (s.isSyncing = false → (checkForUpdates env s).isSyncing = false) := by
  constructor <;> intro h <;> simp [checkForUpdates, h]

/-- C8 (witness): the guard at a concrete in-flight state and the
cleared flag after a concrete idle cycle. -/
theorem c8_witness :
    ({ isSyncing := true, words := [], lastGitHash := none, pending := none,
       backup := none, syncStatus := "" } : ScriptState).isSyncing = true ∧
    checkForUpdates
      { hash1 := some "abc", fetch1 := .networkError, hash2 := none,
        fetch2 := .networkError, now := 0, freshA := fun _ => 0, freshB := fun _ => 0 }
      { isSyncing := true, words := [], lastGitHash := none, pending := none,
        backup := none, syncStatus := "" }
      = { isSyncing := true, words := [], lastGitHash := none, pending := none,
          backup := none, syncStatus := "" } ∧
    (checkForUpdates
      { hash1 := some "abc", fetch1 := .networkError, hash2 := none,
        fetch2 := .networkError, now := 0, freshA := fun _ => 0, freshB := fun _ => 0 }
      { isSyncing := false, words := [], lastGitHash := none, pending := none,
        backup := none, syncStatus := "" }).isSyncing = false := by
  exact ⟨rfl, (c8_sync_guard _ _).1 rfl, (c8_sync_guard _ _).2 rfl⟩

/-- C10: on a successful fetch whose body contains a words array,
loadFromGitHub in src/script.js replaces the whole local collection
with the remote words (normalised by filling missing id, createdAt and
updatedAt), so any record that existed only locally - no remote record
shares its key - is gone from the result. -/
theorem c10_script_load_replaces (now : Int) (fresh : Nat → Nat)
    (hash2 : Option String) (s : ScriptState) (gws : List WordRecord)
    (w : WordRecord) (_hw : w ∈ s.words)
    (hdiff : ∀ g ∈ gws, keyOf g ≠ keyOf w) :
    (loadFromGitHub_script (.ok (some gws)) hash2 now fresh s).1.words
      = (numberFrom 0 gws).map (fun p => fillDefaults now (fresh p.1) p.2) ∧
    ∀ w' ∈ (loadFromGitHub_script (.ok (some gws)) hash2 now fresh s).1.words,
      keyOf w' ≠ keyOf w := by
  refine ⟨rfl, ?_⟩
  intro w' hw'
  simp only [loadFromGitHub_script] at hw'
  rcases List.mem_map.mp hw' with ⟨p, hp, hfill⟩
  have hmem : p.2 ∈ gws := mem_numberFrom p 0 gws hp
  have : keyOf w' = keyOf p.2 := by rw [← hfill]; rfl
  rw [this]
  exact hdiff p.2 hmem

/-- C10 (witness): a local-only "dog" disappears when the remote body
holds just "cat". -/
theorem c10_witness :
    ((mkRec (some 2) "dog" (some "d") none (.valid 10) (.valid 20)) ∈
      ({ isSyncing := false
         words := [mkRec (some 2) "dog" (some "d") none (.valid 10) (.valid 20)]
         lastGitHash := none, pending := none, backup := none
         syncStatus := "" } : ScriptState).words ∧
     ∀ g ∈ [mkRec (some 9) "cat" (some "feline") none .absent (.valid 200)],
       keyOf g ≠ keyOf (mkRec (some 2) "dog" (some "d") none (.valid 10) (.valid 20))) ∧
    (loadFromGitHub_script (.ok (some [mkRec (some 9) "cat" (some "feline") none .absent (.valid 200)]))
      none 0 (fun _ => 0)
      { isSyncing := false
        words := [mkRec (some 2) "dog" (some "d") none (.valid 10) (.valid 20)]
        lastGitHash := none, pending := none, backup := none
        syncStatus := "" }).1.words
      = (numberFrom 0 [mkRec (some 9) "cat" (some "feline") none .absent (.valid 200)]).map
          (fun p => fillDefaults 0 ((fun _ => 0) p.1) p.2) := by
  refine ⟨by decide, ?_⟩
  exact (c10_script_load_replaces 0 (fun _ => 0) none _ _ _
    (List.mem_cons_self ..) (by decide)).1

/-- Reading a just-written position. -/
theorem getD_set_self {α : Type} (l : List α) (i : Nat) (v d : α)
    (h : i < l.length) : (l.set i v).getD i d = v := by
  induction l generalizing i with
  | nil => simp at h
  | cons x xs ih =>
    cases i with
    | zero => rfl
    | succ n => exact ih n (Nat.lt_of_succ_lt_succ h)

/-- Reading a position other than the written one. -/
theorem getD_set_ne {α : Type} (l : List α) (i j : Nat) (v d : α)
    (h : i ≠ j) : (l.set i v).getD j d = l.getD j d := by
  induction l generalizing i j with
  | nil => rfl
  | cons x xs ih =>
    cases i with
    | zero => cases j with
      | zero => exact absurd rfl h
      | succ m => rfl
    | succ n => cases j with
      | zero => rfl
      | succ m => exact ih n m (fun e => h (by rw [e]))

/-- Writing back the value already present changes nothing. -/
theorem set_getD_self {α : Type} (l : List α) (i : Nat) (d : α)
    (h : i < l.length) : l.set i (l.getD i d) = l := by
  induction l generalizing i with
  | nil => simp at h
  | cons x xs ih =>
    cases i with
    | zero => rfl
    | succ n =>
      simp only [List.getD_cons_succ, List.set_cons_succ]
      rw [ih n (Nat.lt_of_succ_lt_succ h)]

/-- Writing the image of the element already at a position into the
mapped list changes nothing. -/
theorem set_map_getD_self {α β : Type} (f : α → β) (l : List α) (i : Nat)
    (d : α) (h : i < l.length) :
    (l.map f).set i (f (l.getD i d)) = l.map f := by
  induction l generalizing i with
  | nil => simp at h
  | cons x xs ih =>
    cases i with
    | zero => rfl
    | succ n =>
      simp only [List.map_cons, List.getD_cons_succ, List.set_cons_succ]
      rw [ih n (Nat.lt_of_succ_lt_succ h)]

/-- A hit in the existingMap is an index into the local list. -/
theorem lastIdxOfKey_lt (L : List WordRecord) (k : String) (i : Nat)
    (h : lastIdxOfKey L k = some i) : i < L.length := by
  induction L generalizing i with
  | nil => cases h
  | cons w ws ih =>
    simp only [lastIdxOfKey] at h
    cases hws : lastIdxOfKey ws k with
    | some j =>
      rw [hws] at h
      cases h
      exact Nat.succ_lt_succ (ih j hws)
    | none =>
      rw [hws] at h
      by_cases hk : keyOf w = k
      · simp [hk] at h; rw [← h]; exact Nat.succ_pos _
      · simp [hk] at h

/-- The record the existingMap resolves a key to carries that key. -/
theorem keyOf_getD_lastIdxOfKey (L : List WordRecord) (k : String) (i : Nat)
    (h : lastIdxOfKey L k = some i) : keyOf (L.getD i default) = k := by
  induction L generalizing i with
  | nil => cases h
  | cons w ws ih =>
    simp only [lastIdxOfKey] at h
    cases hws : lastIdxOfKey ws k with
    | some j =>
      rw [hws] at h
      cases h
      exact ih j hws
    | none =>
      rw [hws] at h
      by_cases hk : keyOf w = k
      · simp [hk] at h; rw [← h]; exact hk
      · simp [hk] at h

/-- The existingMap misses a key exactly when no local record carries
it. -/
theorem lastIdxOfKey_eq_none_iff (L : List WordRecord) (k : String) :
    lastIdxOfKey L k = none ↔ ∀ w ∈ L, keyOf w ≠ k := by
  induction L with
  | nil => simp [lastIdxOfKey]
  | cons w ws ih =>
    simp only [lastIdxOfKey]
    cases hws : lastIdxOfKey ws k with
    | some j =>
      simp only [reduceCtorEq, false_iff]
      intro hall
      have := (ih.mpr fun w' hw' => hall w' (List.mem_cons_of_mem _ hw'))
      rw [hws] at this; cases this
    | none =>
      by_cases hk : keyOf w = k
      · rw [if_pos hk]
        simp only [reduceCtorEq, false_iff]
        intro hall
        exact hall w (List.mem_cons_self ..) hk
      · rw [if_neg hk]
        constructor
        · intro _ w' hw'
          cases hw' with
          | head => exact hk
          | tail _ hmem => exact (ih.mp hws) w' hmem
        · intro _
          rfl

/-- The existingMap lookup only depends on the keys of the list. -/
theorem lastIdxOfKey_congr (A B : List WordRecord)
    (h : A.map keyOf = B.map keyOf) (k : String) :
    lastIdxOfKey A k = lastIdxOfKey B k := by
  induction A generalizing B with
  | nil =>
    cases B with
    | nil => rfl
    | cons b bs => simp at h
  | cons a as ih =>
    cases B with
    | nil => simp at h
    | cons b bs =>
      simp only [List.map_cons, List.cons.injEq] at h
      simp only [lastIdxOfKey, ih bs h.2, h.1]

/-- The existingMap lookup over an appended list: a hit in the second
part wins (it is the later index), otherwise the first part decides. -/
theorem lastIdxOfKey_append (xs ys : List WordRecord) (k : String) :
    lastIdxOfKey (xs ++ ys) k =
      match lastIdxOfKey ys k with
      | some j => some (xs.length + j)
      | none => lastIdxOfKey xs k := by
  induction xs with
  | nil =>
    cases hys : lastIdxOfKey ys k <;> simp [hys, lastIdxOfKey]
  | cons x xs ih =>
    have hstep : lastIdxOfKey ((x :: xs) ++ ys) k =
        match lastIdxOfKey (xs ++ ys) k with
        | some j => some (j + 1)
        | none => if keyOf x = k then some 0 else none := rfl
    rw [hstep, ih]
    cases hys : lastIdxOfKey ys k with
    | some j =>
      simp only [List.length_cons]
      have : xs.length + j + 1 = xs.length + 1 + j := by omega
      simp [this]
    | none => rfl

/-- Structure of a mergeWords fold. Starting from an accumulator
front ++ tail whose front matches the original local list L in length
and keys, the fold keeps the shape front2 ++ tail ++ appended copies:
front2 again matches L in length and keys and keeps the ids of front,
the copies are exactly the remote records whose key misses the map
(numbered from the running counter), and each front position is either
untouched - every matching remote record having lost its date
comparison against it - or overwritten via assignFromRemote by some
matching remote record. -/
theorem mw_fold_char (L : List WordRecord) (fresh : Nat → Nat) :
    ∀ (R front tail : List WordRecord) (cnt : Nat),
      front.length = L.length →
      front.map keyOf = L.map keyOf →
      ∃ front2,
        (R.foldl (mwStep L fresh) (front ++ tail, cnt)).1
          = front2 ++ tail
              ++ (numberFrom cnt (mwAdds L R)).map (fun p => ghCopy (fresh p.1) p.2) ∧
        front2.length = L.length ∧
        front2.map keyOf = L.map keyOf ∧
        front2.map WordRecord.id = front.map WordRecord.id ∧
        (∀ i, i < L.length →
          (front2.getD i default = front.getD i default ∧
           ∀ g ∈ R, lastIdxOfKey L (keyOf g) = some i →
             dateGt (jsDate g) (jsDate (front.getD i default)) = false) ∨
          (∃ g w, g ∈ R ∧ lastIdxOfKey L (keyOf g) = some i ∧
             front2.getD i default = assignFromRemote w g)) := by
  intro R
  induction R with
  | nil =>
    intro front tail cnt hlen hkeys
    refine ⟨front, ?_, hlen, hkeys, rfl, ?_⟩
    · simp [mwAdds, numberFrom]
    · intro i _
      exact Or.inl ⟨rfl, fun g hg => absurd hg (List.not_mem_nil g)⟩
  | cons g R ih =>
    intro front tail cnt hlen hkeys
    cases hmatch : lastIdxOfKey L (keyOf g) with
    | none =>
      have hstep1 : mwStep L fresh (front ++ tail, cnt) g
          = (front ++ (tail ++ [ghCopy (fresh cnt) g]), cnt + 1) := by
        simp [mwStep, hmatch, List.append_assoc]
      obtain ⟨front2, heq, h2, h3, h4, h5⟩ :=
        ih front (tail ++ [ghCopy (fresh cnt) g]) (cnt + 1) hlen hkeys
      refine ⟨front2, ?_, h2, h3, h4, ?_⟩
      · rw [List.foldl_cons, hstep1, heq]
        have hadds : mwAdds L (g :: R) = g :: mwAdds L R := by
          simp [mwAdds, List.filter_cons, hmatch]
        rw [hadds]
        simp [numberFrom, List.append_assoc]
      · intro i hi
        rcases h5 i hi with ⟨hval, hall⟩ | ⟨g', w', hg', hidx, hval⟩
        · refine Or.inl ⟨hval, ?_⟩
          intro g'' hg'' hidx
          cases hg'' with
          | head => rw [hmatch] at hidx; cases hidx
          | tail _ hmem => exact hall g'' hmem hidx
        · exact Or.inr ⟨g', w', List.mem_cons_of_mem _ hg', hidx, hval⟩
    | some i0 =>
      have hi0 : i0 < L.length := lastIdxOfKey_lt L (keyOf g) i0 hmatch
      have hi0f : i0 < front.length := by rw [hlen]; exact hi0
      have hget : (front ++ tail).getD i0 default = front.getD i0 default :=
        List.getD_append _ _ _ _ hi0f
      by_cases hdg : dateGt (jsDate g) (jsDate (front.getD i0 default)) = true
      · have hstep1 : mwStep L fresh (front ++ tail, cnt) g
            = (front.set i0 (assignFromRemote (front.getD i0 default) g) ++ tail,
               cnt) := by
          simp only [mwStep, hmatch]
          rw [hget, if_pos hdg, List.set_append_left _ _ hi0f]
        have hlen2 : (front.set i0 (assignFromRemote (front.getD i0 default) g)).length
            = L.length := by
          rw [List.length_set]; exact hlen
        have hkeys2 : (front.set i0 (assignFromRemote (front.getD i0 default) g)).map keyOf
            = L.map keyOf := by
          rw [List.map_set, hkeys]
          have hkv : keyOf (assignFromRemote (front.getD i0 default) g)
              = keyOf (L.getD i0 default) :=
            keyOf_getD_lastIdxOfKey L (keyOf g) i0 hmatch |>.symm
          rw [hkv]
          exact set_map_getD_self keyOf L i0 default hi0
        obtain ⟨front2, heq, h2, h3, h4, h5⟩ :=
          ih (front.set i0 (assignFromRemote (front.getD i0 default) g)) tail cnt
            hlen2 hkeys2
        refine ⟨front2, ?_, h2, h3, ?_, ?_⟩
        · rw [List.foldl_cons, hstep1, heq]
          have hadds : mwAdds L (g :: R) = mwAdds L R := by
            simp [mwAdds, List.filter_cons, hmatch]
          rw [hadds]
        · rw [h4, List.map_set]
          have hid : (assignFromRemote (front.getD i0 default) g).id
              = (front.getD i0 default).id := rfl
          rw [hid]
          exact set_map_getD_self WordRecord.id front i0 default hi0f
        · intro i hi
          rcases h5 i hi with ⟨hval, hall⟩ | ⟨g', w', hg', hidx, hval⟩
          · by_cases hii : i = i0
            · subst hii
              refine Or.inr ⟨g, front.getD i default, List.mem_cons_self .., hmatch, ?_⟩
              rw [hval, getD_set_self]
              exact hi0f
            · have hgd : (front.set i0 (assignFromRemote (front.getD i0 default) g)).getD
                  i default = front.getD i default :=
                getD_set_ne _ _ _ _ _ (fun e => hii (e.symm))
              refine Or.inl ⟨by rw [hval, hgd], ?_⟩
              intro g'' hg'' hidx
              cases hg'' with
              | head =>
                rw [hmatch] at hidx
                cases hidx
                exact absurd rfl hii
              | tail _ hmem =>
                have := hall g'' hmem hidx
                rw [hgd] at this
                exact this
          · exact Or.inr ⟨g', w', List.mem_cons_of_mem _ hg', hidx, hval⟩
      · have hdgf : dateGt (jsDate g) (jsDate (front.getD i0 default)) = false := by
          revert hdg
          cases dateGt (jsDate g) (jsDate (front.getD i0 default)) <;> simp
        have hstep1 : mwStep L fresh (front ++ tail, cnt) g = (front ++ tail, cnt) := by
          simp only [mwStep, hmatch]
          rw [hget, if_neg hdg]
        obtain ⟨front2, heq, h2, h3, h4, h5⟩ := ih front tail cnt hlen hkeys
        refine ⟨front2, ?_, h2, h3, h4, ?_⟩
        · rw [List.foldl_cons, hstep1, heq]
          have hadds : mwAdds L (g :: R) = mwAdds L R := by
            simp [mwAdds, List.filter_cons, hmatch]
          rw [hadds]
        · intro i hi
          rcases h5 i hi with ⟨hval, hall⟩ | ⟨g', w', hg', hidx, hval⟩
          · refine Or.inl ⟨hval, ?_⟩
            intro g'' hg'' hidx
            cases hg'' with
            | head =>
              rw [hmatch] at hidx
              cases hidx
              exact hdgf
            | tail _ hmem => exact hall g'' hmem hidx
          · exact Or.inr ⟨g', w', List.mem_cons_of_mem _ hg', hidx, hval⟩

/-- Structure of a full mergeWords run, instantiating the fold lemma at
the initial state: the original local list followed by the numbered
GitHub copies of the unmatched remote records. -/
theorem mergeWords_char (fresh : Nat → Nat) (L R : List WordRecord) :
    ∃ front2,
      mergeWords fresh L R
        = front2 ++ (numberFrom 0 (mwAdds L R)).map (fun p => ghCopy (fresh p.1) p.2) ∧
      front2.length = L.length ∧
      front2.map keyOf = L.map keyOf ∧
      front2.map WordRecord.id = L.map WordRecord.id ∧
      (∀ i, i < L.length →
        (front2.getD i default = L.getD i default ∧
         ∀ g ∈ R, lastIdxOfKey L (keyOf g) = some i →
           dateGt (jsDate g) (jsDate (L.getD i default)) = false) ∨
        (∃ g w, g ∈ R ∧ lastIdxOfKey L (keyOf g) = some i ∧
           front2.getD i default = assignFromRemote w g)) := by
  obtain ⟨front2, heq, h2, h3, h4, h5⟩ := mw_fold_char L fresh R L [] 0 rfl rfl
  refine ⟨front2, ?_, h2, h3, h4, h5⟩
  rw [mergeWords]
  rw [show L ++ ([] : List WordRecord) = L from by simp] at heq
  rw [heq]
  simp

/-- getD commutes with map. -/
theorem getD_map_my {α β : Type} (f : α → β) (l : List α) (i : Nat) (d : α) :
    (l.map f).getD i (f d) = f (l.getD i d) := by
  induction l generalizing i with
  | nil => rfl
  | cons x xs ih =>
    cases i with
    | zero => rfl
    | succ n => exact ih n

/-- Lists with equal images under a map agree pointwise under it. -/
theorem map_eq_getD {α β : Type} (f : α → β) (A B : List α)
    (h : A.map f = B.map f) (i : Nat) (d : α) :
    f (A.getD i d) = f (B.getD i d) := by
  rw [← getD_map_my f A i d, ← getD_map_my f B i d, h]

/-- A findIndex hit is an index into the list. -/
theorem firstIdxById_lt (L : List WordRecord) (v : Option Nat) (i : Nat)
    (h : firstIdxById L v = some i) : i < L.length := by
  induction L generalizing i with
  | nil => cases h
  | cons w ws ih =>
    simp only [firstIdxById] at h
    by_cases hw : w.id = v
    · rw [if_pos hw] at h
      cases h
      exact Nat.succ_pos _
    · rw [if_neg hw] at h
      rcases Option.map_eq_some'.mp h with ⟨j, hj, rfl⟩
      exact Nat.succ_lt_succ (ih j hj)

/-- The record findIndex stops at carries the probed id. -/
theorem id_getD_firstIdxById (L : List WordRecord) (v : Option Nat) (i : Nat)
    (h : firstIdxById L v = some i) : (L.getD i default).id = v := by
  induction L generalizing i with
  | nil => cases h
  | cons w ws ih =>
    simp only [firstIdxById] at h
    by_cases hw : w.id = v
    · rw [if_pos hw] at h
      cases h
      exact hw
    · rw [if_neg hw] at h
      rcases Option.map_eq_some'.mp h with ⟨j, hj, rfl⟩
      exact ih j hj

/-- A mergeDictionaries fold never shortens the list and never changes
the id stored at an existing position: a matched overwrite keeps the id
it matched on, and appends only extend the list. -/
theorem md_fold_id_preserved (now : Int) (fresh : Nat → Nat) :
    ∀ (R ws : List WordRecord) (cnt : Nat),
      ws.length ≤ ((R.foldl (mdStep now fresh) (ws, cnt)).1).length ∧
      ∀ i, i < ws.length →
        (((R.foldl (mdStep now fresh) (ws, cnt)).1).getD i default).id
          = (ws.getD i default).id := by
  intro R
  induction R with
  | nil =>
    intro ws cnt
    exact ⟨Nat.le_refl _, fun i _ => rfl⟩
  | cons inc R ih =>
    intro ws cnt
    cases hfind : firstIdxById ws inc.id with
    | some j =>
      have hj : j < ws.length := firstIdxById_lt ws inc.id j hfind
      have hidj : (ws.getD j default).id = inc.id :=
        id_getD_firstIdxById ws inc.id j hfind
      have hstep : mdStep now fresh (ws, cnt) inc
          = (ws.set j (mdSpread (ws.getD j default) inc now), cnt) := by
        simp only [mdStep, hfind]
      rw [List.foldl_cons, hstep]
      obtain ⟨hlen, hids⟩ := ih (ws.set j (mdSpread (ws.getD j default) inc now)) cnt
      rw [List.length_set] at hlen
      refine ⟨hlen, ?_⟩
      intro i hi
      rw [hids i (by rw [List.length_set]; exact hi)]
      by_cases hij : j = i
      · subst hij
        rw [getD_set_self _ _ _ _ hj]
        simp only [mdSpread]
        rw [← hidj]
        cases hcase : (ws.getD j default).id <;> simp [jsOv]
      · rw [getD_set_ne _ _ _ _ _ hij]
    | none =>
      have hstep : mdStep now fresh (ws, cnt) inc
          = (ws ++ [mdAdd (fresh cnt) now inc], cnt + 1) := by
        simp only [mdStep, hfind]
      rw [List.foldl_cons, hstep]
      obtain ⟨hlen, hids⟩ := ih (ws ++ [mdAdd (fresh cnt) now inc]) (cnt + 1)
      refine ⟨?_, ?_⟩
      · calc ws.length ≤ (ws ++ [mdAdd (fresh cnt) now inc]).length := by
              simp
          _ ≤ _ := hlen
      · intro i hi
        rw [hids i (by simp; omega)]
        rw [List.getD_append _ _ _ _ hi]

/-- C1: neither merge engine removes a record present in the local
collection - every original position survives with its id (and for
mergeWords its key) intact, and the merged list is at least as long. -/
theorem c1_merge_never_removes_local (fresh fresh2 : Nat → Nat) (now : Int)
    (L R : List WordRecord) (i : Nat) (hi : i < L.length) :
    (L.length ≤ (mergeWords fresh L R).length ∧
     ((mergeWords fresh L R).getD i default).id = (L.getD i default).id ∧
     keyOf ((mergeWords fresh L R).getD i default) = keyOf (L.getD i default)) ∧
    (L.length ≤ (mergeDictionaries now fresh2 L R).length ∧
     ((mergeDictionaries now fresh2 L R).getD i default).id
       = (L.getD i default).id) := by
  constructor
  · obtain ⟨front2, heq, hlen, hkeys, hids, _⟩ := mergeWords_char fresh L R
    have hif : i < front2.length := by rw [hlen]; exact hi
    have hgd : (mergeWords fresh L R).getD i default = front2.getD i default := by
      rw [heq]
      exact List.getD_append _ _ _ _ hif
    refine ⟨?_, ?_, ?_⟩
    · rw [heq, List.length_append, hlen]
      exact Nat.le_add_right _ _
    · rw [hgd]
      exact map_eq_getD WordRecord.id front2 L hids i default
    · rw [hgd]
      exact map_eq_getD keyOf front2 L hkeys i default
  · obtain ⟨hlen, hids⟩ := md_fold_id_preserved now fresh2 R L 0
    exact ⟨hlen, hids i hi⟩

/-- C1 (witness): merging a newer remote "cat" into a one-record local
collection keeps the local record's position, id and key. -/
theorem c1_witness :
    (0 < ([mkRec (some 1) "cat" (some "a") none (.valid 50) (.valid 100)] :
        List WordRecord).length) ∧
    (1 ≤ (mergeWords (fun _ => 7)
        [mkRec (some 1) "cat" (some "a") none (.valid 50) (.valid 100)]
        [mkRec (some 9) "cat" (some "feline") none .absent (.valid 200)]).length ∧
     ((mergeWords (fun _ => 7)
        [mkRec (some 1) "cat" (some "a") none (.valid 50) (.valid 100)]
        [mkRec (some 9) "cat" (some "feline") none .absent (.valid 200)]).getD 0
          default).id
       = ((([mkRec (some 1) "cat" (some "a") none (.valid 50) (.valid 100)]) :
            List WordRecord).getD 0 default).id ∧
     keyOf ((mergeWords (fun _ => 7)
        [mkRec (some 1) "cat" (some "a") none (.valid 50) (.valid 100)]
        [mkRec (some 9) "cat" (some "feline") none .absent (.valid 200)]).getD 0
          default)
       = keyOf ((([mkRec (some 1) "cat" (some "a") none (.valid 50) (.valid 100)]) :
            List WordRecord).getD 0 default)) ∧
    (1 ≤ (mergeDictionaries 500 (fun _ => 7)
        [mkRec (some 1) "cat" (some "a") none (.valid 50) (.valid 100)]
        [mkRec (some 9) "cat" (some "feline") none .absent (.valid 200)]).length ∧
     ((mergeDictionaries 500 (fun _ => 7)
        [mkRec (some 1) "cat" (some "a") none (.valid 50) (.valid 100)]
        [mkRec (some 9) "cat" (some "feline") none .absent (.valid 200)]).getD 0
          default).id
       = ((([mkRec (some 1) "cat" (some "a") none (.valid 50) (.valid 100)]) :
            List WordRecord).getD 0 default).id) := by
  refine ⟨by decide, ?_⟩
  exact c1_merge_never_removes_local (fun _ => 7) (fun _ => 7) 500
    [mkRec (some 1) "cat" (some "a") none (.valid 50) (.valid 100)]
    [mkRec (some 9) "cat" (some "feline") none .absent (.valid 200)] 0 (by decide)

/-- The appended GitHub copies carry exactly the keys of the records
they were made from: ghCopy only rewrites id and source. -/
theorem map_keyOf_copies (fresh : Nat → Nat) :
    ∀ (n : Nat) (xs : List WordRecord),
      ((numberFrom n xs).map (fun p => ghCopy (fresh p.1) p.2)).map keyOf
        = xs.map keyOf := by
  intro n xs
  induction xs generalizing n with
  | nil => rfl
  | cons x xs ih =>
    simp only [numberFrom, List.map_cons]
    rw [ih (n + 1)]
    rfl

/-- Filtering by a predicate on the key then taking keys is taking keys
then filtering. -/
theorem map_keyOf_filter (p : String → Bool) (R : List WordRecord) :
    (R.filter (fun g => p (keyOf g))).map keyOf = (R.map keyOf).filter p := by
  induction R with
  | nil => rfl
  | cons g R ih =>
    simp only [List.filter_cons, List.map_cons]
    cases hp : p (keyOf g) with
    | true => simp [hp, ih]
    | false => simp [hp, ih]

/-- Structure of the dictionary.js merge fold: the accumulator is
extended by the numbered copies of the GitHub records whose key is not
among the (fixed) local keys. -/
theorem dm_fold_split (keys : List String) (fresh : Nat → Nat) :
    ∀ (R ws : List WordRecord) (cnt : Nat),
      (R.foldl (dmStep keys fresh) (ws, cnt)).1
        = ws ++ (numberFrom cnt (R.filter fun g => !(keys.contains (keyOf g)))).map
            (fun p => { p.2 with id := some (fresh p.1) }) := by
  intro R
  induction R with
  | nil => intro ws cnt; simp [numberFrom]
  | cons g R ih =>
    intro ws cnt
    rw [List.foldl_cons]
    cases hc : keys.contains (keyOf g) with
    | true =>
      have hmem : keyOf g ∈ keys := by simpa using hc
      have hstep : dmStep keys fresh (ws, cnt) g = (ws, cnt) := by
        simp [dmStep]
        exact hmem
      rw [hstep, ih ws cnt]
      have hfilter : List.filter (fun g => !keys.contains (keyOf g)) (g :: R)
          = List.filter (fun g => !keys.contains (keyOf g)) R := by
        simp [List.filter_cons]
        exact hmem
      rw [hfilter]
    | false =>
      have hnmem : ¬ keyOf g ∈ keys := by simpa using hc
      have hstep : dmStep keys fresh (ws, cnt) g
          = (ws ++ [{ g with id := some (fresh cnt) }], cnt + 1) := by
        simp [dmStep]
        exact hnmem
      rw [hstep, ih _ (cnt + 1)]
      have hfilter : List.filter (fun g => !keys.contains (keyOf g)) (g :: R)
          = g :: List.filter (fun g => !keys.contains (keyOf g)) R := by
        simp [List.filter_cons]
        exact hnmem
      rw [hfilter]
      simp [numberFrom, List.append_assoc]

/-- C5 (counterexample): with a duplicate-free (empty) local collection
and a remote snapshot holding two records for the word "dog", both
merge paths append both records, so the merged collection has two
records with the identity key "dog". -/
theorem c5_counterexample :
    (([] : List WordRecord).map keyOf).Nodup ∧
    ¬ ((mergeWords (fun n => n) []
        [mkRec (some 9) "dog" (some "A") none .absent (.valid 200),
         mkRec (some 8) "dog" (some "B") none .absent (.valid 100)]).map keyOf).Nodup ∧
    ¬ ((dictLoadMerge (fun n => n) []
        [mkRec (some 9) "dog" (some "A") none .absent (.valid 200),
         mkRec (some 8) "dog" (some "B") none .absent (.valid 100)]).map keyOf).Nodup := by
  decide

/-- C5 (amended): the merged collection is free of duplicate identity
keys provided both the local collection and the remote snapshot are:
remote records only collide with each other because the key map (the
Set of local keys in dictionary.js) is never extended during the
loop. -/
theorem c5_amended (fresh fresh2 : Nat → Nat) (L R : List WordRecord)
    (hL : (L.map keyOf).Nodup) (hR : (R.map keyOf).Nodup) :
    ((mergeWords fresh L R).map keyOf).Nodup ∧
    ((dictLoadMerge fresh2 L R).map keyOf).Nodup := by
  constructor
  · obtain ⟨front2, heq, _, hkeys, _, _⟩ := mergeWords_char fresh L R
    rw [heq, List.map_append, hkeys, map_keyOf_copies]
    rw [show (mwAdds L R).map keyOf
        = (R.map keyOf).filter (fun k => (lastIdxOfKey L k).isNone) from
      map_keyOf_filter (fun k => (lastIdxOfKey L k).isNone) R]
    refine List.Nodup.append hL (hR.filter _) ?_
    intro k hkL hkF
    rcases List.mem_filter.mp hkF with ⟨_, hnone⟩
    have hnone' : lastIdxOfKey L k = none := by
      cases h : lastIdxOfKey L k with
      | none => rfl
      | some j => rw [h] at hnone; cases hnone
    have hall := (lastIdxOfKey_eq_none_iff L k).mp hnone'
    rcases List.mem_map.mp hkL with ⟨w, hw, rfl⟩
    exact hall w hw rfl
  · rw [dictLoadMerge, dm_fold_split (L.map keyOf) fresh2 R L 0, List.map_append]
    have hcopies : ((numberFrom 0 (R.filter fun g =>
          !((L.map keyOf).contains (keyOf g)))).map
            (fun p => { p.2 with id := some (fresh2 p.1) })).map keyOf
        = (R.filter fun g => !((L.map keyOf).contains (keyOf g))).map keyOf := by
      generalize 0 = n
      generalize (R.filter fun g => !((L.map keyOf).contains (keyOf g))) = xs
      induction xs generalizing n with
      | nil => rfl
      | cons x xs ih =>
        simp only [numberFrom, List.map_cons]
        rw [ih (n + 1)]
        rfl
    rw [hcopies]
    rw [show (R.filter fun g => !((L.map keyOf).contains (keyOf g))).map keyOf
        = (R.map keyOf).filter (fun k => !((L.map keyOf).contains k)) from
      map_keyOf_filter (fun k => !((L.map keyOf).contains k)) R]
    refine List.Nodup.append hL (hR.filter _) ?_
    intro k hkL hkF
    rcases List.mem_filter.mp hkF with ⟨_, hnc⟩
    have hcf : (L.map keyOf).contains k = false := by
      cases h : (L.map keyOf).contains k
      · rfl
      · rw [h] at hnc; cases hnc
    have hct : (L.map keyOf).contains k = true := by
      simpa using hkL
    rw [hcf] at hct
    cases hct

/-- C5 (witness): a duplicate-free local "cat" collection merged with a
duplicate-free remote snapshot of "cat" and "dog" stays
duplicate-free under both merge paths. -/
theorem c5_witness :
    (([mkRec (some 1) "cat" (some "a") none (.valid 50) (.valid 100)].map keyOf).Nodup ∧
     ([mkRec (some 9) "cat" (some "feline") none .absent (.valid 200),
       mkRec (some 8) "dog" (some "B") none .absent (.valid 100)].map keyOf).Nodup) ∧
    ((mergeWords (fun n => n)
        [mkRec (some 1) "cat" (some "a") none (.valid 50) (.valid 100)]
        [mkRec (some 9) "cat" (some "feline") none .absent (.valid 200),
         mkRec (some 8) "dog" (some "B") none .absent (.valid 100)]).map keyOf).Nodup ∧
    ((dictLoadMerge (fun n => n)
        [mkRec (some 1) "cat" (some "a") none (.valid 50) (.valid 100)]
        [mkRec (some 9) "cat" (some "feline") none .absent (.valid 200),
         mkRec (some 8) "dog" (some "B") none .absent (.valid 100)]).map keyOf).Nodup := by
  refine ⟨by decide, ?_⟩
  exact c5_amended (fun n => n) (fun n => n)
    [mkRec (some 1) "cat" (some "a") none (.valid 50) (.valid 100)]
    [mkRec (some 9) "cat" (some "feline") none .absent (.valid 200),
     mkRec (some 8) "dog" (some "B") none .absent (.valid 100)]
    (by decide) (by decide)

/-- A fold whose every step fixes the initial state returns it. -/
theorem foldl_fixed {α β : Type} (f : α → β → α) (st : α) (l : List β)
    (h : ∀ b ∈ l, f st b = st) : l.foldl f st = st := by
  induction l with
  | nil => rfl
  | cons b bs ih =>
    rw [List.foldl_cons, h b (List.mem_cons_self ..)]
    exact ih (fun b' hb' => h b' (List.mem_cons_of_mem _ hb'))

/-- An in-range getD is a member. -/
theorem getD_mem {α : Type} (l : List α) (i : Nat) (d : α)
    (h : i < l.length) : l.getD i d ∈ l := by
  induction l generalizing i with
  | nil => simp at h
  | cons x xs ih =>
    cases i with
    | zero => exact List.mem_cons_self ..
    | succ n => exact List.mem_cons_of_mem _ (ih n (Nat.lt_of_succ_lt_succ h))

/-- Every element of the appended-copy list is a ghCopy of some remote
record that missed the map. -/
theorem mem_copies_ex (fresh : Nat → Nat) (w : WordRecord) :
    ∀ (n : Nat) (xs : List WordRecord),
      w ∈ (numberFrom n xs).map (fun p => ghCopy (fresh p.1) p.2) →
      ∃ c x, x ∈ xs ∧ w = ghCopy c x := by
  intro n xs hw
  rcases List.mem_map.mp hw with ⟨p, hp, hpw⟩
  exact ⟨fresh p.1, p.2, mem_numberFrom p n xs hp, hpw.symm⟩

/-- A GitHub copy keeps the timestamps of its source record. -/
theorem jsDate_ghCopy (c : Nat) (g : WordRecord) :
    jsDate (ghCopy c g) = jsDate g := rfl

/-- mergeWords is idempotent when the remote snapshot carries no two
records with the same identity key: re-merging matches every remote
record against either its own appended copy (equal dates, strict
comparison fails) or the local record it already decided against or
already overwrote (re-overwriting is value-level idempotent). -/
theorem mergeWords_idem (fresh fresh2 : Nat → Nat) (L R : List WordRecord)
    (hR : (R.map keyOf).Nodup) :
    mergeWords fresh2 (mergeWords fresh L R) R = mergeWords fresh L R := by
  obtain ⟨front2, heq, hlen, hkeys, _, hidx⟩ := mergeWords_char fresh L R
  have hfix : ∀ g ∈ R, mwStep (mergeWords fresh L R) fresh2
      (mergeWords fresh L R, 0) g = (mergeWords fresh L R, 0) := by
    intro g hg
    have hcopiesnone_of : ∀ k, lastIdxOfKey L k = some 0 ∨ lastIdxOfKey L k ≠ none →
        True := fun _ _ => trivial
    cases hm : lastIdxOfKey L (keyOf g) with
    | some i =>
      have hi : i < L.length := lastIdxOfKey_lt L (keyOf g) i hm
      have hif : i < front2.length := by rw [hlen]; exact hi
      have hcop : lastIdxOfKey ((numberFrom 0 (mwAdds L R)).map
          (fun p => ghCopy (fresh p.1) p.2)) (keyOf g) = none := by
        rw [lastIdxOfKey_eq_none_iff]
        intro w hw hkw
        rcases mem_copies_ex fresh w 0 (mwAdds L R) hw with ⟨c, x, hx, hwx⟩
        have hxnone : (lastIdxOfKey L (keyOf x)).isNone := by
          exact (List.mem_filter.mp hx).2
        have : keyOf x = keyOf g := by rw [← hkw, hwx]; rfl
        rw [this] at hxnone
        rw [hm] at hxnone
        cases hxnone
      have hfind : lastIdxOfKey (mergeWords fresh L R) (keyOf g) = some i := by
        rw [heq, lastIdxOfKey_append, hcop]
        rw [lastIdxOfKey_congr front2 L hkeys]
        exact hm
      have hgd : (mergeWords fresh L R).getD i default = front2.getD i default := by
        rw [heq]
        exact List.getD_append _ _ _ _ hif
      rcases hidx i hi with ⟨hval, hall⟩ | ⟨g', w', hg', hm', hval⟩
      · have hfalse : dateGt (jsDate g)
            (jsDate ((mergeWords fresh L R).getD i default)) = false := by
          rw [hgd, hval]
          exact hall g hg hm
        simp only [mwStep, hfind]
        rw [if_neg (by rw [hfalse]; exact Bool.false_ne_true)]
      · have hgg : g' = g := by
          have h1 : keyOf (L.getD i default) = keyOf g' :=
            keyOf_getD_lastIdxOfKey L (keyOf g') i hm'
          have h2 : keyOf (L.getD i default) = keyOf g :=
            keyOf_getD_lastIdxOfKey L (keyOf g) i hm
          exact List.inj_on_of_nodup_map hR hg' hg (by rw [← h1, h2])
        rw [hgg] at hval
        by_cases hdg : dateGt (jsDate g)
            (jsDate ((mergeWords fresh L R).getD i default)) = true
        · simp only [mwStep, hfind]
          rw [if_pos hdg]
          have hrei : assignFromRemote ((mergeWords fresh L R).getD i default) g
              = (mergeWords fresh L R).getD i default := by
            rw [hgd, hval]
            exact assignFromRemote_idem g w'
          rw [hrei]
          rw [set_getD_self _ _ _ (by
            rw [heq, List.length_append, hlen]
            exact Nat.lt_of_lt_of_le hi (Nat.le_add_right _ _))]
        · simp only [mwStep, hfind]
          rw [if_neg hdg]
    | none =>
      have hgadds : g ∈ mwAdds L R := by
        rw [mwAdds, List.mem_filter]
        exact ⟨hg, by rw [hm]; rfl⟩
      have hkmem : keyOf g ∈ ((numberFrom 0 (mwAdds L R)).map
          (fun p => ghCopy (fresh p.1) p.2)).map keyOf := by
        rw [map_keyOf_copies]
        exact List.mem_map.mpr ⟨g, hgadds, rfl⟩
      have hcopsome : ∃ j, lastIdxOfKey ((numberFrom 0 (mwAdds L R)).map
          (fun p => ghCopy (fresh p.1) p.2)) (keyOf g) = some j := by
        cases hc : lastIdxOfKey ((numberFrom 0 (mwAdds L R)).map
            (fun p => ghCopy (fresh p.1) p.2)) (keyOf g) with
        | some j => exact ⟨j, rfl⟩
        | none =>
          have hall := (lastIdxOfKey_eq_none_iff _ _).mp hc
          rcases List.mem_map.mp hkmem with ⟨w, hw, hkw⟩
          exact absurd hkw (hall w hw)
      rcases hcopsome with ⟨j, hj⟩
      have hjlt : j < ((numberFrom 0 (mwAdds L R)).map
          (fun p => ghCopy (fresh p.1) p.2)).length :=
        lastIdxOfKey_lt _ _ j hj
      have hfind : lastIdxOfKey (mergeWords fresh L R) (keyOf g)
          = some (front2.length + j) := by
        rw [heq, lastIdxOfKey_append, hj]
      have hgd : (mergeWords fresh L R).getD (front2.length + j) default
          = ((numberFrom 0 (mwAdds L R)).map
              (fun p => ghCopy (fresh p.1) p.2)).getD j default := by
        rw [heq, List.getD_append_right _ _ _ _ (Nat.le_add_right _ _)]
        congr 1
        omega
      have hkey : keyOf (((numberFrom 0 (mwAdds L R)).map
          (fun p => ghCopy (fresh p.1) p.2)).getD j default) = keyOf g :=
        keyOf_getD_lastIdxOfKey _ _ j hj
      rcases mem_copies_ex fresh _ 0 (mwAdds L R)
        (getD_mem _ j default hjlt) with ⟨c, x, hx, hwx⟩
      have hxg : x = g := by
        have hkx : keyOf x = keyOf g := by
          rw [← hkey, hwx]; rfl
        exact List.inj_on_of_nodup_map hR
          (List.mem_of_mem_filter hx) hg hkx
      have hdate : jsDate (((numberFrom 0 (mwAdds L R)).map
          (fun p => ghCopy (fresh p.1) p.2)).getD j default) = jsDate g := by
        rw [hwx, hxg]
        rfl
      have hfalse : dateGt (jsDate g)
          (jsDate ((mergeWords fresh L R).getD (front2.length + j) default))
          = false := by
        rw [hgd, hdate]
        exact dateGt_self _
      simp only [mwStep, hfind]
      rw [if_neg (by rw [hfalse]; exact Bool.false_ne_true)]
  have hfold : R.foldl (mwStep (mergeWords fresh L R) fresh2)
      (mergeWords fresh L R, 0) = (mergeWords fresh L R, 0) :=
    foldl_fixed _ _ _ hfix
  show (R.foldl (mwStep (mergeWords fresh L R) fresh2)
      (mergeWords fresh L R, 0)).1 = mergeWords fresh L R
  rw [hfold]

/-- A duplicated property wins over itself. -/
theorem jsOv_self {α : Type} (a : Option α) : jsOv a a = a := by
  cases a <;> rfl

/-- findIndex over an appended list: a hit in the first part wins,
otherwise the second part's hit is shifted. -/
theorem firstIdxById_append (xs ys : List WordRecord) (v : Option Nat) :
    firstIdxById (xs ++ ys) v =
      match firstIdxById xs v with
      | some j => some j
      | none => (firstIdxById ys v).map (· + xs.length) := by
  induction xs with
  | nil =>
    simp only [List.nil_append, firstIdxById]
    cases firstIdxById ys v <;> simp
  | cons x xs ih =>
    simp only [List.cons_append, firstIdxById]
    by_cases hx : x.id = v
    · rw [if_pos hx, if_pos hx]
    · rw [if_neg hx, if_neg hx]
      simp only [List.append_eq]
      rw [ih]
      cases hxs : firstIdxById xs v with
      | some j => rfl
      | none =>
        cases hys : firstIdxById ys v with
        | none => rfl
        | some k =>
          simp only [Option.map_some', List.length_cons]
          congr 1

/-- findIndex over ids only depends on the ids of the list. -/
theorem firstIdxById_congr (A B : List WordRecord)
    (h : A.map WordRecord.id = B.map WordRecord.id) (v : Option Nat) :
    firstIdxById A v = firstIdxById B v := by
  induction A generalizing B with
  | nil =>
    cases B with
    | nil => rfl
    | cons b bs => simp at h
  | cons a as ih =>
    cases B with
    | nil => simp at h
    | cons b bs =>
      simp only [List.map_cons, List.cons.injEq] at h
      simp only [firstIdxById, h.1, ih bs h.2]

/-- findIndex misses exactly when no record carries the probed id. -/
theorem firstIdxById_eq_none_iff (L : List WordRecord) (v : Option Nat) :
    firstIdxById L v = none ↔ ∀ w ∈ L, w.id ≠ v := by
  induction L with
  | nil => simp [firstIdxById]
  | cons w ws ih =>
    simp only [firstIdxById]
    by_cases hw : w.id = v
    · rw [if_pos hw]
      simp only [reduceCtorEq, false_iff]
      intro hall
      exact hall w (List.mem_cons_self ..) hw
    · rw [if_neg hw]
      constructor
      · intro h w' hw'
        cases hw' with
        | head => exact hw
        | tail _ hm =>
          have hn : firstIdxById ws v = none := by
            cases hws : firstIdxById ws v with
            | none => rfl
            | some j => rw [hws] at h; cases h
          exact (ih.mp hn) w' hm
      · intro hall
        have hn : firstIdxById ws v = none :=
          ih.mpr (fun w' hm => hall w' (List.mem_cons_of_mem _ hm))
        rw [hn]
        rfl

/-- Re-applying the same incoming record to a spread result changes
nothing. -/
theorem mdSpread_idem (x inc : WordRecord) (now : Int) :
    mdSpread (mdSpread x inc now) inc now = mdSpread x inc now := by
  simp [mdSpread, jsOv_absorb, tsOr_absorb]

/-- With a nonzero id present, the fresh-id argument of mdAdd is
irrelevant. -/
theorem mdAdd_fresh_eq (a b : Nat) (now : Int) (inc : WordRecord) (v : Nat)
    (hv : inc.id = some v) (h0 : v ≠ 0) :
    mdAdd a now inc = mdAdd b now inc := by
  simp [mdAdd, jsOrId, hv, h0]

/-- Spreading an incoming record over its own appended copy returns the
copy. -/
theorem mdSpread_mdAdd (c : Nat) (now : Int) (inc : WordRecord) (v : Nat)
    (hv : inc.id = some v) (h0 : v ≠ 0) :
    mdSpread (mdAdd c now inc) inc now = mdAdd c now inc := by
  simp [mdSpread, mdAdd, jsOv_self, jsOrId, hv, h0, tsOr_absorb]

/-- Structure of a mergeDictionaries fold when every incoming record
carries a nonzero id, no two incoming ids coincide and no incoming id
collides with the already-appended tail: the front keeps its length and
ids and each front position is either untouched (no incoming record
matches it) or spread over by the unique matching incoming record,
while the unmatched incoming records are appended as copies. -/
theorem md_fold_char (now : Int) (fresh : Nat → Nat) :
    ∀ (R front tail : List WordRecord) (cnt : Nat),
      (∀ inc ∈ R, ∃ v, inc.id = some v ∧ v ≠ 0) →
      ((R.map WordRecord.id).Nodup) →
      (∀ inc ∈ R, ∀ t ∈ tail, t.id ≠ inc.id) →
      ∃ front2,
        (R.foldl (mdStep now fresh) (front ++ tail, cnt)).1
          = front2 ++ tail
              ++ (R.filter (fun inc => (firstIdxById front inc.id).isNone)).map
                  (fun inc => mdAdd 0 now inc) ∧
        front2.length = front.length ∧
        front2.map WordRecord.id = front.map WordRecord.id ∧
        (∀ i, i < front.length →
          (front2.getD i default = front.getD i default ∧
           ∀ inc ∈ R, firstIdxById front inc.id ≠ some i) ∨
          (∃ inc, inc ∈ R ∧ firstIdxById front inc.id = some i ∧
             front2.getD i default = mdSpread (front.getD i default) inc now)) := by
  intro R
  induction R with
  | nil =>
    intro front tail cnt _ _ _
    refine ⟨front, by simp, rfl, rfl, ?_⟩
    intro i _
    exact Or.inl ⟨rfl, fun inc hinc => absurd hinc (List.not_mem_nil inc)⟩
  | cons inc R ih =>
    intro front tail cnt hv hnd htail
    obtain ⟨v, hvi, hv0⟩ := hv inc (List.mem_cons_self ..)
    have hvR : ∀ inc' ∈ R, ∃ v, inc'.id = some v ∧ v ≠ 0 :=
      fun inc' h => hv inc' (List.mem_cons_of_mem _ h)
    have hnd' : (R.map WordRecord.id).Nodup := by
      simp only [List.map_cons, List.nodup_cons] at hnd
      exact hnd.2
    have hndid : inc.id ∉ R.map WordRecord.id := by
      simp only [List.map_cons, List.nodup_cons] at hnd
      exact hnd.1
    have htail' : ∀ inc' ∈ R, ∀ t ∈ tail, t.id ≠ inc'.id :=
      fun inc' h t ht => htail inc' (List.mem_cons_of_mem _ h) t ht
    cases hff : firstIdxById front inc.id with
    | some j =>
      have hj : j < front.length := firstIdxById_lt front inc.id j hff
      have hidj : (front.getD j default).id = inc.id :=
        id_getD_firstIdxById front inc.id j hff
      have hfind : firstIdxById (front ++ tail) inc.id = some j := by
        rw [firstIdxById_append, hff]
      have hgetj : (front ++ tail).getD j default = front.getD j default :=
        List.getD_append _ _ _ _ hj
      have hstep : mdStep now fresh (front ++ tail, cnt) inc
          = (front.set j (mdSpread (front.getD j default) inc now) ++ tail,
             cnt) := by
        simp only [mdStep, hfind, hgetj]
        rw [List.set_append_left _ _ hj]
      have hsetids : (front.set j (mdSpread (front.getD j default) inc now)).map
          WordRecord.id = front.map WordRecord.id := by
        rw [List.map_set]
        have hidv : (mdSpread (front.getD j default) inc now).id
            = (front.getD j default).id := by
          simp only [mdSpread]
          rw [← hidj]
          cases (front.getD j default).id <;> simp [jsOv]
        rw [hidv]
        exact set_map_getD_self WordRecord.id front j default hj
      obtain ⟨front2, heq, hlen2, hids2, hidx2⟩ :=
        ih (front.set j (mdSpread (front.getD j default) inc now)) tail cnt
          hvR hnd' htail'
      have hcongr : ∀ x : Option Nat,
          firstIdxById (front.set j (mdSpread (front.getD j default) inc now)) x
            = firstIdxById front x :=
        fun x => firstIdxById_congr _ _ hsetids x
      refine ⟨front2, ?_, ?_, ?_, ?_⟩
      · rw [List.foldl_cons, hstep, heq]
        have hfilter : R.filter (fun inc' =>
              (firstIdxById (front.set j (mdSpread (front.getD j default) inc now))
                inc'.id).isNone)
            = R.filter (fun inc' => (firstIdxById front inc'.id).isNone) := by
          apply List.filter_congr
          intro x _
          rw [hcongr]
        rw [hfilter]
        have hfc : (inc :: R).filter (fun inc' =>
              (firstIdxById front inc'.id).isNone)
            = R.filter (fun inc' => (firstIdxById front inc'.id).isNone) := by
          rw [List.filter_cons, hff]
          rfl
        rw [hfc]
      · rw [hlen2, List.length_set]
      · rw [hids2, hsetids]
      · intro i hi
        have hi' : i < (front.set j
            (mdSpread (front.getD j default) inc now)).length := by
          rw [List.length_set]; exact hi
        rcases hidx2 i hi' with ⟨hval, hall⟩ | ⟨inc', hinc', hfi, hval⟩
        · by_cases hij : j = i
          · subst hij
            refine Or.inr ⟨inc, List.mem_cons_self .., hff, ?_⟩
            rw [hval, getD_set_self _ _ _ _ hj]
          · refine Or.inl ⟨?_, ?_⟩
            · rw [hval, getD_set_ne _ _ _ _ _ hij]
            · intro inc' hinc' hfi
              cases hinc' with
              | head =>
                rw [hff] at hfi
                cases hfi
                exact hij rfl
              | tail _ hm =>
                exact hall inc' hm (by rw [hcongr]; exact hfi)
        · rw [hcongr] at hfi
          by_cases hij : j = i
          · subst hij
            have h1 : (front.getD j default).id = inc'.id :=
              id_getD_firstIdxById front inc'.id j hfi
            have habs : inc.id ∈ R.map WordRecord.id := by
              rw [← hidj, h1]
              exact List.mem_map.mpr ⟨inc', hinc', rfl⟩
            exact absurd habs hndid
          · refine Or.inr ⟨inc', List.mem_cons_of_mem _ hinc', hfi, ?_⟩
            rw [hval, getD_set_ne _ _ _ _ _ hij]
    | none =>
      have hnone : firstIdxById (front ++ tail) inc.id = none := by
        rw [firstIdxById_append, hff]
        have htn : firstIdxById tail inc.id = none :=
          (firstIdxById_eq_none_iff tail inc.id).mpr
            (fun t ht => htail inc (List.mem_cons_self ..) t ht)
        rw [htn]
        rfl
      have hstep : mdStep now fresh (front ++ tail, cnt) inc
          = (front ++ (tail ++ [mdAdd 0 now inc]), cnt + 1) := by
        simp only [mdStep, hnone]
        rw [mdAdd_fresh_eq (fresh cnt) 0 now inc v hvi hv0]
        rw [List.append_assoc]
      have htail2 : ∀ inc' ∈ R, ∀ t ∈ tail ++ [mdAdd 0 now inc],
          t.id ≠ inc'.id := by
        intro inc' h t ht
        rcases List.mem_append.mp ht with h1 | h1
        · exact htail' inc' h t h1
        · have ht1 : t = mdAdd 0 now inc := List.mem_singleton.mp h1
          subst ht1
          have hmid : (mdAdd 0 now inc).id = inc.id := by
            simp [mdAdd, jsOrId, hvi, hv0]
          rw [hmid]
          intro he
          exact hndid (by rw [he]; exact List.mem_map.mpr ⟨inc', h, rfl⟩)
      obtain ⟨front2, heq, hlen2, hids2, hidx2⟩ :=
        ih front (tail ++ [mdAdd 0 now inc]) (cnt + 1) hvR hnd' htail2
      refine ⟨front2, ?_, hlen2, hids2, ?_⟩
      · rw [List.foldl_cons, hstep, heq]
        have hfc : (inc :: R).filter (fun inc' =>
              (firstIdxById front inc'.id).isNone)
            = inc :: R.filter (fun inc' => (firstIdxById front inc'.id).isNone) := by
          rw [List.filter_cons, hff]
          rfl
        rw [hfc]
        simp [List.append_assoc]
      · intro i hi
        rcases hidx2 i hi with ⟨hval, hall⟩ | ⟨inc', hinc', hfi, hval⟩
        · refine Or.inl ⟨hval, ?_⟩
          intro inc' hinc' hfi
          cases hinc' with
          | head => rw [hff] at hfi; cases hfi
          | tail _ hm => exact hall inc' hm hfi
        · exact Or.inr ⟨inc', List.mem_cons_of_mem _ hinc', hfi, hval⟩

/-- mergeDictionaries is idempotent when every incoming record carries
a distinct nonzero id and the same clock value stamps both merges:
re-merging finds every incoming record - either at the front position
it already overwrote or at its own appended copy - and overwrites it
with the value already there. -/
theorem mergeDictionaries_idem (now : Int) (fresh fresh2 : Nat → Nat)
    (L R : List WordRecord)
    (hv : ∀ inc ∈ R, ∃ v, inc.id = some v ∧ v ≠ 0)
    (hnd : (R.map WordRecord.id).Nodup) :
    mergeDictionaries now fresh2 (mergeDictionaries now fresh L R) R
      = mergeDictionaries now fresh L R := by
  obtain ⟨front2, heq, hlen2, hids2, hidx2⟩ :=
    md_fold_char now fresh R L [] 0 hv hnd (fun inc _ t ht => absurd ht (List.not_mem_nil t))
  rw [List.append_nil] at heq
  have hM : mergeDictionaries now fresh L R
      = front2 ++ (R.filter (fun inc => (firstIdxById L inc.id).isNone)).map
          (fun inc => mdAdd 0 now inc) := by
    show (R.foldl (mdStep now fresh) (L, 0)).1 = _
    rw [heq, List.append_nil]
  have hlenM : (mergeDictionaries now fresh L R).length
      = front2.length + ((R.filter (fun inc =>
          (firstIdxById L inc.id).isNone)).map (fun inc => mdAdd 0 now inc)).length := by
    rw [hM, List.length_append]
  have hfix : ∀ inc ∈ R, mdStep now fresh2 (mergeDictionaries now fresh L R, 0) inc
      = (mergeDictionaries now fresh L R, 0) := by
    intro inc hg
    obtain ⟨v, hvi, hv0⟩ := hv inc hg
    have hcongrL : firstIdxById front2 inc.id = firstIdxById L inc.id :=
      firstIdxById_congr _ _ hids2 _
    cases hfL : firstIdxById L inc.id with
    | some i =>
      have hi : i < L.length := firstIdxById_lt L inc.id i hfL
      have hif : i < front2.length := by rw [hlen2]; exact hi
      have hfind : firstIdxById (mergeDictionaries now fresh L R) inc.id
          = some i := by
        rw [hM, firstIdxById_append, hcongrL, hfL]
      have hgd : (mergeDictionaries now fresh L R).getD i default
          = front2.getD i default := by
        rw [hM]
        exact List.getD_append _ _ _ _ hif
      rcases hidx2 i hi with ⟨_, hall⟩ | ⟨inc', hinc', hfi, hval⟩
      · exact absurd hfL (hall inc hg)
      · have hinc'eq : inc' = inc := by
          have h1 : (L.getD i default).id = inc'.id :=
            id_getD_firstIdxById L inc'.id i hfi
          have h2 : (L.getD i default).id = inc.id :=
            id_getD_firstIdxById L inc.id i hfL
          exact List.inj_on_of_nodup_map hnd hinc' hg (by rw [← h1, h2])
        rw [hinc'eq] at hval
        have hsp : mdSpread ((mergeDictionaries now fresh L R).getD i default)
            inc now = (mergeDictionaries now fresh L R).getD i default := by
          rw [hgd, hval]
          exact mdSpread_idem _ inc now
        simp only [mdStep, hfind]
        rw [hsp, set_getD_self _ _ _ (by
          rw [hlenM]
          exact Nat.lt_of_lt_of_le hif (Nat.le_add_right _ _))]
    | none =>
      have hpinc : inc ∈ R.filter (fun inc => (firstIdxById L inc.id).isNone) :=
        List.mem_filter.mpr ⟨hg, by rw [hfL]; rfl⟩
      have hcmem : mdAdd 0 now inc ∈ (R.filter (fun inc =>
          (firstIdxById L inc.id).isNone)).map (fun inc => mdAdd 0 now inc) :=
        List.mem_map.mpr ⟨inc, hpinc, rfl⟩
      have hcid : (mdAdd 0 now inc).id = inc.id := by
        simp [mdAdd, jsOrId, hvi, hv0]
      have hsome : ∃ j, firstIdxById ((R.filter (fun inc =>
          (firstIdxById L inc.id).isNone)).map (fun inc => mdAdd 0 now inc))
          inc.id = some j := by
        cases hc : firstIdxById ((R.filter (fun inc =>
            (firstIdxById L inc.id).isNone)).map (fun inc => mdAdd 0 now inc))
            inc.id with
        | some j => exact ⟨j, rfl⟩
        | none =>
          have hall := (firstIdxById_eq_none_iff _ _).mp hc
          exact absurd hcid (hall _ hcmem)
      obtain ⟨j, hj⟩ := hsome
      have hjlt : j < ((R.filter (fun inc =>
          (firstIdxById L inc.id).isNone)).map (fun inc => mdAdd 0 now inc)).length :=
        firstIdxById_lt _ inc.id j hj
      have hfind : firstIdxById (mergeDictionaries now fresh L R) inc.id
          = some (j + front2.length) := by
        rw [hM, firstIdxById_append, hcongrL, hfL, hj]
        rfl
      have hgd : (mergeDictionaries now fresh L R).getD (j + front2.length) default
          = ((R.filter (fun inc => (firstIdxById L inc.id).isNone)).map
              (fun inc => mdAdd 0 now inc)).getD j default := by
        rw [hM, List.getD_append_right _ _ _ _ (by omega)]
        congr 1
        omega
      have hjid : (((R.filter (fun inc => (firstIdxById L inc.id).isNone)).map
          (fun inc => mdAdd 0 now inc)).getD j default).id = inc.id :=
        id_getD_firstIdxById _ inc.id j hj
      have hjmem := getD_mem _ j default hjlt
      rcases List.mem_map.mp hjmem with ⟨inc'', hinc'', hval⟩
      have hinc''R : inc'' ∈ R := List.mem_of_mem_filter hinc''
      obtain ⟨v'', hvi'', hv0''⟩ := hv inc'' hinc''R
      have hid'' : inc''.id = inc.id := by
        have hcid'' : (mdAdd 0 now inc'').id = inc''.id := by
          simp [mdAdd, jsOrId, hvi'', hv0'']
        rw [← hjid, ← hval, hcid'']
      have hinc''eq : inc'' = inc :=
        List.inj_on_of_nodup_map hnd hinc''R hg hid''
      have hcopy : (mergeDictionaries now fresh L R).getD (j + front2.length)
          default = mdAdd 0 now inc := by
        rw [hgd, ← hval, hinc''eq]
      have hsp : mdSpread ((mergeDictionaries now fresh L R).getD
          (j + front2.length) default) inc now
          = (mergeDictionaries now fresh L R).getD (j + front2.length) default := by
        rw [hcopy]
        exact mdSpread_mdAdd 0 now inc v hvi hv0
      simp only [mdStep, hfind]
      rw [hsp, set_getD_self _ _ _ (by rw [hlenM]; omega)]
  have hfold : R.foldl (mdStep now fresh2) (mergeDictionaries now fresh L R, 0)
      = (mergeDictionaries now fresh L R, 0) :=
    foldl_fixed _ _ _ hfix
  show (R.foldl (mdStep now fresh2) (mergeDictionaries now fresh L R, 0)).1
      = mergeDictionaries now fresh L R
  rw [hfold]

/-- C4 (counterexample): a remote snapshot holding two records for the
word "dog" (both appended by the first merge because the key map is
never extended) keeps changing the collection on re-merge: the second
merge resolves the key "dog" to the last appended copy and overwrites
it with the newer duplicate, so merging the same snapshot again
produces a further change. -/
theorem c4_counterexample :
    mergeWords (fun n => n)
      (mergeWords (fun n => n) []
        [mkRec (some 9) "dog" (some "A") none .absent (.valid 200),
         mkRec (some 8) "dog" (some "B") none .absent (.valid 100)])
      [mkRec (some 9) "dog" (some "A") none .absent (.valid 200),
       mkRec (some 8) "dog" (some "B") none .absent (.valid 100)]
    ≠ mergeWords (fun n => n) []
        [mkRec (some 9) "dog" (some "A") none .absent (.valid 200),
         mkRec (some 8) "dog" (some "B") none .absent (.valid 100)] := by
  decide

/-- C4 (amended): re-merging the same remote snapshot produces no
further change provided the snapshot is duplicate-free in the relevant
identity key - for mergeWords no two remote records may share the
lower-cased word text, and for mergeDictionaries every incoming record
must carry a nonzero id, no two incoming ids may coincide, and the
clock stamp must be unchanged between the merges. -/
theorem c4_amended (fresh fresh2 : Nat → Nat) (now : Int)
    (L R : List WordRecord) :
    ((R.map keyOf).Nodup →
      mergeWords fresh2 (mergeWords fresh L R) R = mergeWords fresh L R) ∧
    ((∀ inc ∈ R, ∃ v, inc.id = some v ∧ v ≠ 0) →
      (R.map WordRecord.id).Nodup →
      mergeDictionaries now fresh2 (mergeDictionaries now fresh L R) R
        = mergeDictionaries now fresh L R) := by
  constructor
  · intro hR
    exact mergeWords_idem fresh fresh2 L R hR
  · intro hv hnd
    exact mergeDictionaries_idem now fresh fresh2 L R hv hnd

/-- C4 (witness): the amended statement at a one-record local
collection and a duplicate-free two-record snapshot. -/
theorem c4_witness :
    (([mkRec (some 9) "cat" (some "feline") none .absent (.valid 200),
       mkRec (some 8) "dog" (some "B") none .absent (.valid 100)].map keyOf).Nodup ∧
     ([mkRec (some 9) "cat" (some "feline") none .absent (.valid 200),
       mkRec (some 8) "dog" (some "B") none .absent (.valid 100)].map
        WordRecord.id).Nodup) ∧
    mergeWords (fun n => n)
      (mergeWords (fun n => n + 50)
        [mkRec (some 1) "cat" (some "a") none (.valid 50) (.valid 100)]
        [mkRec (some 9) "cat" (some "feline") none .absent (.valid 200),
         mkRec (some 8) "dog" (some "B") none .absent (.valid 100)])
      [mkRec (some 9) "cat" (some "feline") none .absent (.valid 200),
       mkRec (some 8) "dog" (some "B") none .absent (.valid 100)]
      = mergeWords (fun n => n + 50)
          [mkRec (some 1) "cat" (some "a") none (.valid 50) (.valid 100)]
          [mkRec (some 9) "cat" (some "feline") none .absent (.valid 200),
           mkRec (some 8) "dog" (some "B") none .absent (.valid 100)] ∧
    mergeDictionaries 500 (fun n => n)
      (mergeDictionaries 500 (fun n => n + 50)
        [mkRec (some 1) "cat" (some "a") none (.valid 50) (.valid 100)]
        [mkRec (some 9) "cat" (some "feline") none .absent (.valid 200),
         mkRec (some 8) "dog" (some "B") none .absent (.valid 100)])
      [mkRec (some 9) "cat" (some "feline") none .absent (.valid 200),
       mkRec (some 8) "dog" (some "B") none .absent (.valid 100)]
      = mergeDictionaries 500 (fun n => n + 50)
          [mkRec (some 1) "cat" (some "a") none (.valid 50) (.valid 100)]
          [mkRec (some 9) "cat" (some "feline") none .absent (.valid 200),
           mkRec (some 8) "dog" (some "B") none .absent (.valid 100)] := by
  refine ⟨⟨by decide, by decide⟩, ?_, ?_⟩
  · exact (c4_amended (fun n => n + 50) (fun n => n) 500
      [mkRec (some 1) "cat" (some "a") none (.valid 50) (.valid 100)]
      [mkRec (some 9) "cat" (some "feline") none .absent (.valid 200),
       mkRec (some 8) "dog" (some "B") none .absent (.valid 100)]).1 (by decide)
  · refine (c4_amended (fun n => n + 50) (fun n => n) 500
      [mkRec (some 1) "cat" (some "a") none (.valid 50) (.valid 100)]
      [mkRec (some 9) "cat" (some "feline") none .absent (.valid 200),
       mkRec (some 8) "dog" (some "B") none .absent (.valid 100)]).2 ?_ (by decide)
    intro inc hinc
    cases hinc with
    | head => exact ⟨9, rfl, by decide⟩
    | tail _ h =>
      cases h with
      | head => exact ⟨8, rfl, by decide⟩
      | tail _ h2 => exact absurd h2 (List.not_mem_nil inc)

end Theorems

end DictionaryManager
